import Mathlib

/-!
Verification of the zerobrew installer core against its specification.

Each Rust function relevant to the claims is shallowly embedded as an
executable Lean definition operating on explicit data: byte buffers are
`List Nat`, filesystem state is an association list from paths to nodes,
and effectful pipelines are written in explicit state-passing style.
Machine behaviour that is irrelevant to the claims (actual HTTP transport,
SHA-256 compression function, tar extraction) is abstracted as oracle
function parameters, never stubbed with fixed values inside a definition.
-/

set_option maxRecDepth 4096

/-! ## Mach-O binary string patching (src/zb_io/src/extraction/patch/macos.rs)

`patch_macho_binary_strings` scans a byte buffer for occurrences of the
legacy Homebrew prefixes and rewrites them in place.  The scan is the
`while i < contents.len()` loop of the Rust function; the buffer length is
invariant during the loop (all writes are in-place `copy_from_slice` /
element stores), so the loop bound is the initial length and the loop
needs at most `contents.len()` iterations, which we supply as structural
fuel. -/

/-- Bytes of an ASCII string, as used for `old_prefix.as_bytes()`. -/
def strBytes (s : String) : List Nat :=
  s.data.map Char.toNat

/-- `HOMEBREW_PREFIXES` from macos.rs. -/
def homebrewPrefixes : List (List Nat) :=
  [strBytes "/opt/homebrew", strBytes "/usr/local/Homebrew",
   strBytes "/usr/local", strBytes "/home/linuxbrew/.linuxbrew"]

/-- `contents[i..i + old_bytes.len()] == *old_bytes`: the old prefix bytes
occur at position `i` (false when fewer than `old.length` bytes remain). -/
def matchesAt (buf oldB : List Nat) (i : Nat) : Bool :=
  (buf.drop i).take oldB.length == oldB

/-- `matches!(next, None | Some(0) | Some(b'/'))` where
`next = contents.get(i + old_bytes.len())`. -/
def isPathBoundary (buf : List Nat) (j : Nat) : Bool :=
  match buf[j]? with
  | none => true
  | some b => b == 0 || b == 47

/-- The in-place rewrite performed on a boundary match: the new prefix is
copied over the start of the occurrence and the remaining bytes of the old
prefix are zero-filled. -/
def rewriteAt (buf newB : List Nat) (i width : Nat) : List Nat :=
  buf.take i ++ newB ++ List.replicate (width - newB.length) 0 ++ buf.drop (i + width)

/-- The scan loop of `patch_macho_binary_strings` for one legacy prefix.
`n` is `contents.len()` (constant through the loop), `i` the loop index,
`fuel` the remaining iteration budget. -/
def scanLoop (oldB newB : List Nat) (n : Nat) : Nat → List Nat → Nat → List Nat
  | _, buf, 0 => buf
  | i, buf, fuel + 1 =>
    if i < n then
      if i + oldB.length > n then buf
      else
        scanLoop oldB newB n (i + 1)
          (if matchesAt buf oldB i && isPathBoundary buf (i + oldB.length) then
            rewriteAt buf newB i oldB.length
          else buf) fuel
    else buf

/-- The per-prefix body of the `for old_prefix in HOMEBREW_PREFIXES` loop:
skip when the prefix equals the new one or when the new prefix is longer. -/
def patchOnePfx (oldB newB buf : List Nat) : List Nat :=
  if oldB == newB then buf
  else if newB.length > oldB.length then buf
  else scanLoop oldB newB buf.length 0 buf buf.length

/-- The full data-section pass of `patch_macho_binary_strings` over all
legacy Homebrew prefixes. -/
def patchMachoBinaryStrings (newB buf : List Nat) : List Nat :=
  homebrewPrefixes.foldl (fun b o => patchOnePfx o newB b) buf

/-! ## The error taxonomy (src/zb_core/src/errors.rs) -/

/-- The `Error` enum of zb_core.  Paths are component lists. -/
inductive ZbError where
  | unsupportedBottle (name : String)
  | checksumMismatch (expected actual : String)
  | linkConflict (path : List String)
  | storeCorruption (message : String)
  | networkFailure (message : String)
  | missingFormula (name : String)
  | unsupportedTap (name : String)
  | dependencyCycle (cycle : List String)
  | notInstalled (name : String)
  | executionError (message : String)
deriving DecidableEq, Repr

/-! ## API client (src/zb_io/src/api.rs)

`get_formula` is embedded over the observable inputs of one call: the
cached entry for the URL, the HTTP response the server produced for the
(possibly conditional) request, and a parse oracle standing for
`serde_json::from_str::<Formula>`.  The function returns the result
together with the cache entry written by `cache.put`, if any. -/

structure CacheEntry where
  etag : Option String
  lastModified : Option String
  body : String
deriving DecidableEq, Repr

structure HttpResponse where
  status : Nat
  etag : Option String
  lastModified : Option String
  body : String
deriving DecidableEq, Repr

/-- `reqwest::StatusCode::is_success`: 2xx. -/
def statusIsSuccess (s : Nat) : Prop := 200 ≤ s ∧ s < 300

instance (s : Nat) : Decidable (statusIsSuccess s) := by
  unfold statusIsSuccess
  infer_instance

/-- The tail of `get_formula` after the 304-with-cache early return:
404 check, other non-success check, then cache store and parse. -/
def getFormulaRest {F : Type} (name : String) (resp : HttpResponse)
    (parse : String → Option F) : Except ZbError F × Option CacheEntry :=
  if resp.status = 404 then (.error (.missingFormula name), none)
  else if ¬ statusIsSuccess resp.status then
    (.error (.networkFailure ("HTTP " ++ toString resp.status)), none)
  else
    let entry : CacheEntry := ⟨resp.etag, resp.lastModified, resp.body⟩
    match parse resp.body with
    | some f => (.ok f, some entry)
    | none => (.error (.networkFailure "failed to parse formula JSON"), some entry)

/-- `ApiClient::get_formula` for one request/response exchange. -/
def getFormula {F : Type} (name : String) (cached : Option CacheEntry)
    (resp : HttpResponse) (parse : String → Option F) :
    Except ZbError F × Option CacheEntry :=
  if resp.status = 304 then
    match cached with
    | some entry =>
      (match parse entry.body with
       | some f => .ok f
       | none => .error (.networkFailure "failed to parse cached formula JSON"), none)
    | none => getFormulaRest name resp parse
  else getFormulaRest name resp parse

/-! ## Auth challenge handling (src/zb_io/src/download.rs)

The GET responses of `download_with_progress` are modelled as an oracle
`getResp : Nat → AuthResponse` giving the response to the n-th origin GET
of this call; `fetch_bearer_token` (token cache plus token endpoint) is an
oracle.  The second component of each result counts origin GETs issued. -/

structure AuthResponse where
  status : Nat
  wwwAuthenticate : Option String
deriving DecidableEq, Repr

/-- `Downloader::handle_auth_challenge`.  `retryResp` is the response to
the retried GET with the bearer token attached; the `Nat` component is 1
exactly when that retry was actually issued. -/
def handleAuthChallenge (resp : AuthResponse)
    (fetchToken : String → Except ZbError String) (retryResp : AuthResponse) :
    Except ZbError AuthResponse × Nat :=
  match resp.wwwAuthenticate with
  | none =>
    (.error (.networkFailure
      "server returned 401 without WWW-Authenticate header (may be rate limited)"), 0)
  | some www =>
    match fetchToken www with
    | .error e => (.error e, 0)
    | .ok _token =>
      if retryResp.status = 401 then
        (.error (.networkFailure "authentication failed: token was rejected by server"), 1)
      else (.ok retryResp, 1)

/-- The request/response control flow of `download_with_progress` before
body streaming: blob short-circuit, initial GET, 401 challenge, success
check.  Returns `.ok none` for the cached-blob path. -/
def downloadFlow (hasBlob : Bool) (getResp : Nat → AuthResponse)
    (fetchToken : String → Except ZbError String) :
    Except ZbError (Option AuthResponse) × Nat :=
  if hasBlob then (.ok none, 0)
  else
    let resp0 := getResp 0
    let afterAuth :=
      if resp0.status = 401 then handleAuthChallenge resp0 fetchToken (getResp 1)
      else (.ok resp0, 0)
    match afterAuth with
    | (.error e, g) => (.error e, 1 + g)
    | (.ok r, g) =>
      if ¬ statusIsSuccess r.status then
        (.error (.networkFailure ("HTTP " ++ toString r.status)), 1 + g)
      else (.ok (some r), 1 + g)

/-! ## Blob cache (src/zb_io/src/blob.rs)

The cache directories are modelled as association lists: `blobs` maps a
sha256 (the stem of `cache/blobs/<sha256>.tar.gz`) to the committed bytes,
`tmps` maps a unique staging file name under `cache/tmp/` to its current
bytes.  `uniqueId` stands for the `<pid>.<thread-id>` infix of the staging
name. -/

structure BlobState where
  blobs : List (String × List Nat)
  tmps : List (String × List Nat)
deriving DecidableEq, Repr

/-- Remove every entry with the given key (file deletion). -/
def removeKey {α : Type} : List (String × α) → String → List (String × α)
  | [], _ => []
  | p :: l, k => if p.1 = k then removeKey l k else p :: removeKey l k

/-- Replace the value at a key, appending the entry when absent. -/
def setKey {α : Type} (l : List (String × α)) (k : String) (v : α) : List (String × α) :=
  (k, v) :: removeKey l k

structure BlobWriterM where
  tmpPath : String
  finalPath : String
deriving DecidableEq, Repr

/-- `BlobCache::start_write`: create (truncate) the unique staging file. -/
def startWrite (bs : BlobState) (sha256 uniqueId : String) : BlobState × BlobWriterM :=
  let tmpName := sha256 ++ "." ++ uniqueId ++ ".tar.gz.part"
  ({ bs with tmps := setKey bs.tmps tmpName [] },
   { tmpPath := tmpName, finalPath := sha256 })

/-- `Write::write_all` on the staging file. -/
def writerWrite (bs : BlobState) (w : BlobWriterM) (chunk : List Nat) : BlobState :=
  match List.lookup w.tmpPath bs.tmps with
  | some content => { bs with tmps := setKey bs.tmps w.tmpPath (content ++ chunk) }
  | none => bs

/-- `BlobWriter::commit`: absorb a racer's committed blob, else atomically
rename the staging file to the final path. -/
def blobCommit (bs : BlobState) (w : BlobWriterM) : BlobState × Except ZbError String :=
  if (List.lookup w.finalPath bs.blobs).isSome then
    ({ bs with tmps := removeKey bs.tmps w.tmpPath }, .ok w.finalPath)
  else
    match List.lookup w.tmpPath bs.tmps with
    | some content =>
      ({ blobs := setKey bs.blobs w.finalPath content,
         tmps := removeKey bs.tmps w.tmpPath }, .ok w.finalPath)
    | none => (bs, .error (.networkFailure "failed to rename blob"))

/-- `Drop for BlobWriter`: an uncommitted writer removes its staging file. -/
def writerDrop (bs : BlobState) (w : BlobWriterM) (committed : Bool) : BlobState :=
  if ¬ committed ∧ (List.lookup w.tmpPath bs.tmps).isSome then
    { bs with tmps := removeKey bs.tmps w.tmpPath }
  else bs

/-- `Downloader::download_response_with_progress`: stream the chunks into
the writer and a hasher, compare the digest, and either fail (dropping the
writer uncommitted) or commit.  `sha256Hash` abstracts the SHA-256
function. -/
def downloadResponseWithProgress (bs : BlobState) (expectedSha256 uniqueId : String)
    (chunks : List (List Nat)) (sha256Hash : List Nat → String) :
    BlobState × Except ZbError String :=
  let sw := startWrite bs expectedSha256 uniqueId
  let bs2 := chunks.foldl (fun b c => writerWrite b sw.2 c) sw.1
  let actual := sha256Hash chunks.flatten
  if actual ≠ expectedSha256 then
    (writerDrop bs2 sw.2 false, .error (.checksumMismatch expectedSha256 actual))
  else blobCommit bs2 sw.2

/-! ## Install pipeline (src/zb_io/src/install.rs)

`Installer::execute_with_progress` after the Homebrew-skip partition:
`toInstall` is the filtered `(formula, bottle)` list, `arrivals` is the
sequence of items received from the streaming download channel in
completion order, and the store / cellar / linker stages are oracles.
The loop keeps one `error: Option<Error>` slot that every failing stage
overwrites, and a `completed` vector indexed by the request index; after
the channel drains, any recorded error aborts before the commit loop. -/

structure PipeOps where
  ensureEntry : String → String → Except ZbError String
  materialize : String → String → String → Except ZbError String
  linkKegFn : String → Except ZbError (List (String × String))

structure PkgSpec where
  name : String
  version : String
  sha256 : String
deriving DecidableEq, Repr

structure DownloadItem where
  name : String
  sha256 : String
  blobPath : String
  index : Nat
deriving DecidableEq, Repr

structure ProcessedPackage where
  name : String
  version : String
  storeKey : String
  linkedFiles : List (String × String)
deriving DecidableEq, Repr

/-- One iteration of the `while let Some(result) = rx.recv()` loop.
The unreachable out-of-bounds index (the channel only carries indices of
submitted requests) leaves the state unchanged. -/
def processDownload (ops : PipeOps) (link : Bool) (toInstall : List PkgSpec)
    (st : List (Option ProcessedPackage) × Option ZbError)
    (item : Except ZbError DownloadItem) :
    List (Option ProcessedPackage) × Option ZbError :=
  match item with
  | .error e => (st.1, some e)
  | .ok dl =>
    match toInstall[dl.index]? with
    | none => st
    | some pkg =>
      match ops.ensureEntry pkg.sha256 dl.blobPath with
      | .error e => (st.1, some e)
      | .ok entry =>
        match ops.materialize pkg.name pkg.version entry with
        | .error e => (st.1, some e)
        | .ok kegPath =>
          match (if link then ops.linkKegFn kegPath else .ok []) with
          | .error e => (st.1, some e)
          | .ok files =>
            (st.1.set dl.index (some ⟨pkg.name, pkg.version, pkg.sha256, files⟩), st.2)

/-- `execute_with_progress` from the channel drain onwards: fold the loop
over the arrivals, then either abort with the recorded error (committing
nothing) or commit the completed packages in plan order.  The first
component is the list of packages actually committed to the database. -/
def executeWithProgress (ops : PipeOps) (link : Bool) (toInstall : List PkgSpec)
    (arrivals : List (Except ZbError DownloadItem)) :
    List ProcessedPackage × Except ZbError Nat :=
  let st := arrivals.foldl (processDownload ops link toInstall)
    (List.replicate toInstall.length none, none)
  match st.2 with
  | some e => ([], .error e)
  | none => (st.1.reduceOption, .ok toInstall.length)

/-- The error produced while handling one channel item, if any (the value
the loop writes into its `error` slot at that iteration). -/
def itemError (ops : PipeOps) (link : Bool) (toInstall : List PkgSpec)
    (item : Except ZbError DownloadItem) : Option ZbError :=
  match item with
  | .error e => some e
  | .ok dl =>
    match toInstall[dl.index]? with
    | none => none
    | some pkg =>
      match ops.ensureEntry pkg.sha256 dl.blobPath with
      | .error e => some e
      | .ok entry =>
        match ops.materialize pkg.name pkg.version entry with
        | .error e => some e
        | .ok kegPath =>
          match (if link then ops.linkKegFn kegPath else .ok []) with
          | .error e => some e
          | .ok _ => none

/-- The sequence of stage errors in completion order. -/
def pipelineErrors (ops : PipeOps) (link : Bool) (toInstall : List PkgSpec)
    (arrivals : List (Except ZbError DownloadItem)) : List ZbError :=
  arrivals.filterMap (itemError ops link toInstall)

/-! ## Filesystem model for the linker (src/zb_io/src/link.rs)

Absolute paths are component lists.  The filesystem is an association list
from paths to nodes; lookup takes the first entry for a path.  A symlink
stores the target exactly as `read_link` would return it, with a flag
telling whether it is absolute (`std::os::unix::fs::symlink` in link.rs is
always called with absolute targets, but existing links may be relative).
`canonicalize` follows the symlink chain of the addressed entry with
bounded fuel (a cycle, like `ELOOP`, yields `None`, as does a missing
entry); intermediate directory components are taken literally, which
matches filesystems whose directories are plain entries. -/

inductive FsNode where
  | file
  | dir
  | symlink (target : List String) (isAbs : Bool)
deriving DecidableEq, Repr

/-- Whether a node is a symlink. -/
def FsNode.isLink : FsNode → Bool
  | .symlink _ _ => true
  | _ => false

abbrev Fs := List (List String × FsNode)

def fsGet (fs : Fs) (p : List String) : Option FsNode :=
  match fs with
  | [] => none
  | (q, n) :: rest => if q = p then some n else fsGet rest p

/-- `fs::remove_file`. -/
def fsRemove (fs : Fs) (p : List String) : Fs :=
  match fs with
  | [] => []
  | (q, n) :: rest => if q = p then fsRemove rest p else (q, n) :: fsRemove rest p

/-- `std::os::unix::fs::symlink(target, link)` — link.rs always passes an
absolute target. -/
def fsAddSymlink (fs : Fs) (link target : List String) : Fs :=
  (link, .symlink target true) :: fs

/-- `fs::read_link`. -/
def readLinkF (fs : Fs) (p : List String) : Option (List String × Bool) :=
  match fsGet fs p with
  | some (.symlink t a) => some (t, a)
  | _ => none

/-- Resolve a `read_link` result: a relative target is joined onto the
link's parent directory (`link_path.parent().unwrap_or("").join(target)`). -/
def resolveTarget (link target : List String) (isAbs : Bool) : List String :=
  if isAbs then target else link.dropLast ++ target

def canonAux (fs : Fs) : Nat → List String → Option (List String)
  | 0, _ => none
  | fuel + 1, p =>
    match fsGet fs p with
    | some (.symlink t a) => canonAux fs fuel (resolveTarget p t a)
    | some _ => some p
    | none => none

/-- `fs::canonicalize(...).ok()`. -/
def canon (fs : Fs) (p : List String) : Option (List String) :=
  canonAux fs (fs.length + 1) p

/-- `Path::exists` (follows symlinks). -/
def pexists (fs : Fs) (p : List String) : Bool :=
  (canon fs p).isSome

/-- `fs::read_dir`: the names of the direct children of `p`. -/
def readDir (fs : Fs) (p : List String) : List String :=
  (fs.filterMap (fun e => if e.1.dropLast = p then e.1.getLast? else none)).dedup

/-- The formula name extracted from a keg path
(`keg_path.parent().and_then(file_name)`). -/
def optName (kegPath : List String) : Option String :=
  kegPath.dropLast.getLast?

/-- `Linker::link_opt`. -/
def linkOpt (fs : Fs) (optDir kegPath : List String) : Fs × Except ZbError Unit :=
  match optName kegPath with
  | none => (fs, .error (.storeCorruption "could not determine formula name from keg path"))
  | some name =>
    let optLink := optDir ++ [name]
    if (fsGet fs optLink).isSome then
      match readLinkF fs optLink with
      | some (t, a) =>
        if (canon fs (resolveTarget optLink t a)).isSome ∧
            canon fs (resolveTarget optLink t a) = canon fs kegPath then
          (fs, .ok ())
        else (fsAddSymlink (fsRemove fs optLink) optLink kegPath, .ok ())
      | none => (fsAddSymlink (fsRemove fs optLink) optLink kegPath, .ok ())
    else (fsAddSymlink fs optLink kegPath, .ok ())

/-- One iteration of the `for entry in fs::read_dir(&keg_bin)` loop of
`link_keg`. -/
def linkBinEntry (fs : Fs) (binDir kegBin : List String) (name : String)
    (acc : List (List String × List String)) :
    Fs × Except ZbError (List (List String × List String)) :=
  let targetPath := kegBin ++ [name]
  let linkPath := binDir ++ [name]
  if pexists fs linkPath || (fsGet fs linkPath).isSome then
    match readLinkF fs linkPath with
    | some (t, a) =>
      if (canon fs (resolveTarget linkPath t a)).isSome ∧
          canon fs (resolveTarget linkPath t a) = canon fs targetPath then
        (fs, .ok (acc ++ [(linkPath, targetPath)]))
      else if canon fs (resolveTarget linkPath t a) = none then
        (fsAddSymlink (fsRemove fs linkPath) linkPath targetPath,
         .ok (acc ++ [(linkPath, targetPath)]))
      else (fs, .error (.linkConflict linkPath))
    | none => (fs, .error (.linkConflict linkPath))
  else (fsAddSymlink fs linkPath targetPath, .ok (acc ++ [(linkPath, targetPath)]))

def linkBinLoop (binDir kegBin : List String) :
    List String → Fs → List (List String × List String) →
    Fs × Except ZbError (List (List String × List String))
  | [], fs, acc => (fs, .ok acc)
  | name :: rest, fs, acc =>
    match linkBinEntry fs binDir kegBin name acc with
    | (fs2, .error e) => (fs2, .error e)
    | (fs2, .ok acc2) => linkBinLoop binDir kegBin rest fs2 acc2

/-- `Linker::link_keg`. -/
def linkKeg (fs : Fs) (binDir optDir kegPath : List String) :
    Fs × Except ZbError (List (List String × List String)) :=
  match linkOpt fs optDir kegPath with
  | (fs1, .error e) => (fs1, .error e)
  | (fs1, .ok ()) =>
    let kegBin := kegPath ++ ["bin"]
    if ¬ pexists fs1 kegBin then (fs1, .ok [])
    else linkBinLoop binDir kegBin (readDir fs1 kegBin) fs1 []

/-- `Linker::unlink_opt`. -/
def unlinkOpt (fs : Fs) (optDir kegPath : List String) : Fs :=
  match optName kegPath with
  | none => fs
  | some name =>
    let optLink := optDir ++ [name]
    match readLinkF fs optLink with
    | some (t, a) =>
      if (canon fs (resolveTarget optLink t a)).isSome ∧
          canon fs (resolveTarget optLink t a) = canon fs kegPath then
        fsRemove fs optLink
      else fs
    | none => fs

def unlinkBinLoop (binDir kegBin : List String) :
    List String → Fs → List (List String) → Fs × List (List String)
  | [], fs, acc => (fs, acc)
  | name :: rest, fs, acc =>
    let targetPath := kegBin ++ [name]
    let linkPath := binDir ++ [name]
    match readLinkF fs linkPath with
    | some (t, a) =>
      if (canon fs (resolveTarget linkPath t a)).isSome ∧
          canon fs (resolveTarget linkPath t a) = canon fs targetPath then
        unlinkBinLoop binDir kegBin rest (fsRemove fs linkPath) (acc ++ [linkPath])
      else unlinkBinLoop binDir kegBin rest fs acc
    | none => unlinkBinLoop binDir kegBin rest fs acc

/-- `Linker::unlink_keg`. -/
def unlinkKeg (fs : Fs) (binDir optDir kegPath : List String) :
    Fs × List (List String) :=
  let fs1 := unlinkOpt fs optDir kegPath
  let kegBin := kegPath ++ ["bin"]
  if ¬ pexists fs1 kegBin then (fs1, [])
  else unlinkBinLoop binDir kegBin (readDir fs1 kegBin) fs1 []

/-- A concrete filesystem: a keg `Cellar/foo/1.0` holding `bin/foo` and
`lib/libfoo.a`, plus an empty prefix `zb`. -/
def c1Fs : Fs :=
  [(["Cellar"], .dir), (["Cellar", "foo"], .dir), (["Cellar", "foo", "1.0"], .dir),
   (["Cellar", "foo", "1.0", "bin"], .dir),
   (["Cellar", "foo", "1.0", "bin", "foo"], .file),
   (["Cellar", "foo", "1.0", "lib"], .dir),
   (["Cellar", "foo", "1.0", "lib", "libfoo.a"], .file),
   (["zb"], .dir), (["zb", "bin"], .dir), (["zb", "opt"], .dir)]

/-- A path whose removal `unlink_keg` is allowed to perform: it held a
symlink whose canonicalized target coincides with the canonicalization of
some path inside the keg.  (When the keg tree itself holds a symlink,
that common canonical path may lie outside the keg.) -/
def CanonIntoKeg (fs : Fs) (kegPath p : List String) : Prop :=
  ∃ t a c q, fsGet fs p = some (.symlink t a) ∧ kegPath <+: q ∧
    canon fs (resolveTarget p t a) = some c ∧ canon fs q = some c

/-- Invariant relating an intermediate state of `unlink_keg` to the
starting filesystem: the state did not grow, and every path is untouched
or removed-and-justified. -/
def UnlinkInv (fs fsi : Fs) (kegPath : List String) : Prop :=
  fsi.length ≤ fs.length ∧
  ∀ p, fsGet fsi p = fsGet fs p ∨ (fsGet fsi p = none ∧ CanonIntoKeg fs kegPath p)

/-- A concrete filesystem for the unlink witness: a keg with `bin/x`, a
prefix symlink `z/bin/x` into the keg, a foreign symlink `z/bin/y`, and an
opt symlink. -/
def c5Fs : Fs :=
  [(["c"], .dir), (["c", "p"], .dir), (["c", "p", "1"], .dir),
   (["c", "p", "1", "bin"], .dir), (["c", "p", "1", "bin", "x"], .file),
   (["z", "bin", "x"], .symlink ["c", "p", "1", "bin", "x"] true),
   (["z", "bin", "y"], .symlink ["other", "y"] true),
   (["other", "y"], .file),
   (["z", "opt", "p"], .symlink ["c", "p", "1"] true)]

/-- A keg whose `bin/x` is itself a symlink pointing at the outside file
`o/x`, and a prefix symlink `z/bin/x` sharing that outside canonical
target. -/
def c5xFs : Fs :=
  [(["k"], .dir), (["k", "1"], .dir), (["k", "1", "bin"], .dir),
   (["k", "1", "bin", "x"], .symlink ["o", "x"] true),
   (["o", "x"], .file),
   (["z", "bin", "x"], .symlink ["o", "x"] true)]

/-! ## Parallel download deduplication (src/zb_io/src/download.rs)

`ParallelDownloader::download_with_dedup` for one fixed sha256, as an
interleaving transition system.  Each concurrent caller is a task; the
atomic sections are exactly the code between the cooperative suspension
points of the Rust function (the inflight-map mutex, the semaphore, the
HTTP response, the broadcast channel).  Shared state: whether the inflight
map holds an entry for the sha (`inflight`), whether the blob is committed
in the cache (`blob`), the semaphore permits in use (`sem`), and how many
GETs the origin server has received for this sha (`requests`). -/

inductive TaskPc where
  | start
  | leaderSem
  | leaderCheck
  | leaderReq
  | leaderBody
  | leaderFinish (ok : Bool)
  | joinWait (res : Option Bool)
  | done (ok : Bool)
deriving DecidableEq, Repr

structure DedupState where
  tasks : List TaskPc
  inflight : Bool
  blob : Bool
  sem : Nat
  requests : Nat
deriving DecidableEq, Repr

/-- The broadcast `sender.send(...)`: every subscribed waiter receives the
leader's result. -/
def joinFlip (ok : Bool) : TaskPc → TaskPc
  | .joinWait none => .joinWait (some ok)
  | pc => pc

def setJoiners (ok : Bool) (l : List TaskPc) : List TaskPc :=
  l.map (joinFlip ok)

/-- One scheduler step of the dedup protocol.  `cap` is the semaphore
size, `allowFail` enables the failing-download transition. -/
inductive DStep (cap : Nat) (allowFail : Bool) : DedupState → DedupState → Prop where
  | lockJoin (s : DedupState) (i : Nat)
      (h : s.tasks[i]? = some .start) (hin : s.inflight = true) :
      DStep cap allowFail s { s with tasks := s.tasks.set i (.joinWait none) }
  | lockLead (s : DedupState) (i : Nat)
      (h : s.tasks[i]? = some .start) (hin : s.inflight = false) :
      DStep cap allowFail s
        { s with tasks := s.tasks.set i .leaderSem, inflight := true }
  | semAcq (s : DedupState) (i : Nat)
      (h : s.tasks[i]? = some .leaderSem) (hs : s.sem < cap) :
      DStep cap allowFail s
        { s with tasks := s.tasks.set i .leaderCheck, sem := s.sem + 1 }
  | checkHit (s : DedupState) (i : Nat)
      (h : s.tasks[i]? = some .leaderCheck) (hb : s.blob = true) :
      DStep cap allowFail s { s with tasks := s.tasks.set i (.leaderFinish true) }
  | checkMiss (s : DedupState) (i : Nat)
      (h : s.tasks[i]? = some .leaderCheck) (hb : s.blob = false) :
      DStep cap allowFail s { s with tasks := s.tasks.set i .leaderReq }
  | send (s : DedupState) (i : Nat)
      (h : s.tasks[i]? = some .leaderReq) :
      DStep cap allowFail s
        { s with tasks := s.tasks.set i .leaderBody, requests := s.requests + 1 }
  | bodyOk (s : DedupState) (i : Nat)
      (h : s.tasks[i]? = some .leaderBody) :
      DStep cap allowFail s
        { s with tasks := s.tasks.set i (.leaderFinish true), blob := true }
  | bodyFail (s : DedupState) (i : Nat)
      (h : s.tasks[i]? = some .leaderBody) (hf : allowFail = true) :
      DStep cap allowFail s { s with tasks := s.tasks.set i (.leaderFinish false) }
  | finish (s : DedupState) (i : Nat) (ok : Bool)
      (h : s.tasks[i]? = some (.leaderFinish ok)) :
      DStep cap allowFail s
        { s with tasks := setJoiners ok (s.tasks.set i (.done ok)),
                 inflight := false, sem := s.sem - 1 }
  | recv (s : DedupState) (i : Nat) (r : Bool)
      (h : s.tasks[i]? = some (.joinWait (some r))) :
      DStep cap allowFail s { s with tasks := s.tasks.set i (.done r) }

/-- `N` callers that all request the same sha256, nothing downloaded yet. -/
def initState (n : Nat) : DedupState :=
  ⟨List.replicate n .start, false, false, 0, 0⟩

/-- The pcs held while this task owns the inflight-map entry. -/
def leaderRegionB : TaskPc → Bool
  | .leaderSem => true
  | .leaderCheck => true
  | .leaderReq => true
  | .leaderBody => true
  | .leaderFinish _ => true
  | _ => false

/-- How many tasks have a network download in flight right now. -/
def inFlightCount (s : DedupState) : Nat :=
  s.tasks.countP (fun pc => pc == TaskPc.leaderBody)

/-- pcs only reachable after some origin GET was issued for this sha. -/
def donePastB : TaskPc → Bool
  | .leaderBody => true
  | .leaderFinish _ => true
  | .joinWait (some _) => true
  | .done _ => true
  | _ => false

/-- pcs carrying no failure result. -/
def noFailB : TaskPc → Bool
  | .leaderFinish false => false
  | .done false => false
  | .joinWait (some false) => false
  | _ => true

def isDoneB : TaskPc → Bool
  | .done _ => true
  | _ => false

/-- Safety invariant: the inflight-map entry and the leader region
correspond one-to-one. -/
def SafeInv (s : DedupState) : Prop :=
  s.tasks.countP leaderRegionB = (if s.inflight then 1 else 0)

/-- Invariant for failure-free executions. -/
def SuccInv (s : DedupState) : Prop :=
  SafeInv s ∧
  s.requests ≤ 1 ∧
  (s.blob = true → s.requests = 1) ∧
  (∀ j : Nat, ∀ pc, s.tasks[j]? = some pc → donePastB pc = true → s.requests = 1) ∧
  (s.requests = 1 → s.blob = false → ∃ j : Nat, s.tasks[j]? = some TaskPc.leaderBody) ∧
  (∀ j : Nat, ∀ pc, s.tasks[j]? = some pc → noFailB pc = true) ∧
  (∀ j : Nat, s.tasks[j]? = some (TaskPc.leaderFinish true) → s.blob = true) ∧
  (∀ j : Nat, s.tasks[j]? = some TaskPc.leaderReq → s.blob = false)

/-! ## Theorems -/

/-! ### Lemmas about the scan loop -/

theorem matchesAt_le {buf oldB : List Nat} {i : Nat} (hne : oldB ≠ [])
    (h : matchesAt buf oldB i = true) : i + oldB.length ≤ buf.length := by
  have heq : (buf.drop i).take oldB.length = oldB := by
    simpa [matchesAt] using h
  have hlen := congrArg List.length heq
  simp [List.length_take, List.length_drop] at hlen
  have hpos : 0 < oldB.length := List.length_pos.mpr hne
  omega

theorem matchesAt_false_of_long {buf oldB : List Nat} {i : Nat} (hne : oldB ≠ [])
    (h : buf.length < i + oldB.length) : matchesAt buf oldB i = false := by
  cases hm : matchesAt buf oldB i with
  | false => rfl
  | true => exact absurd (matchesAt_le hne hm) (by omega)

theorem rewriteAt_length {buf newB : List Nat} {i width : Nat}
    (hw : newB.length ≤ width) (hle : i + width ≤ buf.length) :
    (rewriteAt buf newB i width).length = buf.length := by
  simp [rewriteAt, List.length_take, List.length_replicate, List.length_drop]
  omega

theorem rewriteAt_getElem {buf newB : List Nat} {i width : Nat}
    (hw : newB.length ≤ width) (hle : i + width ≤ buf.length) (j : Nat) :
    (rewriteAt buf newB i width)[j]? =
      if j < i then buf[j]?
      else if j < i + newB.length then newB[j - i]?
      else if j < i + width then some 0
      else buf[j]? := by
  have hti : (buf.take i).length = i := by
    simp [List.length_take]; omega
  rw [rewriteAt]
  simp only [List.append_assoc]
  by_cases h1 : j < i
  · rw [List.getElem?_append_left (by omega)]
    simp [h1, List.getElem?_take_of_lt h1]
  · rw [List.getElem?_append_right (by omega)]
    rw [hti]
    by_cases h2 : j < i + newB.length
    · rw [List.getElem?_append_left (by omega)]
      simp [h1, h2]
    · rw [List.getElem?_append_right (by omega)]
      by_cases h3 : j < i + width
      · rw [List.getElem?_append_left (by simp [List.length_replicate]; omega)]
        simp only [h1, if_false, h2, if_false, h3, if_true]
        rw [List.getElem?_replicate]
        rw [if_pos (by omega)]
      · rw [List.getElem?_append_right (by simp [List.length_replicate]; omega)]
        simp only [h1, if_false, h2, if_false, h3, if_false, List.length_replicate]
        rw [List.getElem?_drop]
        congr 1
        omega

theorem scanLoop_succ (oldB newB : List Nat) (n i : Nat) (buf : List Nat) (fuel : Nat) :
    scanLoop oldB newB n i buf (fuel + 1) =
      if i < n then
        if i + oldB.length > n then buf
        else
          scanLoop oldB newB n (i + 1)
            (if matchesAt buf oldB i && isPathBoundary buf (i + oldB.length) then
              rewriteAt buf newB i oldB.length
            else buf) fuel
      else buf := rfl

theorem scanLoop_no_hit (oldB newB : List Nat) (n : Nat) :
    ∀ (fuel i : Nat) (buf : List Nat),
      (∀ j, i ≤ j → matchesAt buf oldB j = true →
        isPathBoundary buf (j + oldB.length) = false) →
      scanLoop oldB newB n i buf fuel = buf := by
  intro fuel
  induction fuel with
  | zero => intro i buf _; rfl
  | succ fuel ih =>
    intro i buf h
    show scanLoop oldB newB n i buf (fuel + 1) = buf
    unfold scanLoop
    by_cases hi : i < n
    · by_cases hbr : i + oldB.length > n
      · simp [hi, hbr]
      · have hcond : (matchesAt buf oldB i && isPathBoundary buf (i + oldB.length)) = false := by
          cases hm : matchesAt buf oldB i with
          | false => simp
          | true => simp [h i le_rfl hm]
        simp only [hi, if_true, hbr, if_false, hcond, Bool.false_eq_true]
        exact ih (i + 1) buf (fun j hj => h j (by omega))
    · simp [hi]

theorem scanLoop_advance (oldB newB : List Nat) (n : Nat) :
    ∀ (d i fuel : Nat) (buf : List Nat),
      (∀ j, i ≤ j → j < i + d → matchesAt buf oldB j = true →
        isPathBoundary buf (j + oldB.length) = false) →
      i + d + oldB.length ≤ n →
      scanLoop oldB newB n i buf (fuel + d) = scanLoop oldB newB n (i + d) buf fuel := by
  intro d
  induction d with
  | zero => intro i fuel buf _ _; rfl
  | succ d ih =>
    intro i fuel buf h hb
    have hi : i < n := by omega
    have hbr : ¬ (i + oldB.length > n) := by omega
    have hcond : (matchesAt buf oldB i && isPathBoundary buf (i + oldB.length)) = false := by
      cases hm : matchesAt buf oldB i with
      | false => simp
      | true => simp [h i le_rfl (by omega) hm]
    have hstep : scanLoop oldB newB n i buf (fuel + (d + 1)) =
        scanLoop oldB newB n (i + 1) buf (fuel + d) := by
      show scanLoop oldB newB n i buf ((fuel + d) + 1) = _
      rw [scanLoop_succ]
      simp [hi, hbr, hcond]
    rw [hstep, ih (i + 1) fuel buf (fun j hj hj2 => h j (by omega) (by omega)) (by omega)]
    congr 1
    omega

theorem scanLoop_hit (oldB newB : List Nat) (n i fuel : Nat) (buf : List Nat)
    (hm : matchesAt buf oldB i = true) (hb : isPathBoundary buf (i + oldB.length) = true)
    (hi : i < n) (hle : i + oldB.length ≤ n) :
    scanLoop oldB newB n i buf (fuel + 1) =
      scanLoop oldB newB n (i + 1) (rewriteAt buf newB i oldB.length) fuel := by
  rw [scanLoop_succ]
  have hbr : ¬ (i + oldB.length > n) := by omega
  simp [hi, hbr, hm, hb]

theorem patchOnePfx_skip_of_longer {oldB newB buf : List Nat}
    (h : newB.length > oldB.length) : patchOnePfx oldB newB buf = buf := by
  by_cases heq : (oldB == newB) = true
  · simp [patchOnePfx, heq]
  · simp [patchOnePfx, heq, h]

theorem foldl_patchOnePfx_skip (newB : List Nat) :
    ∀ (l : List (List Nat)) (b : List Nat), (∀ o ∈ l, newB.length > o.length) →
      l.foldl (fun b o => patchOnePfx o newB b) b = b := by
  intro l
  induction l with
  | nil => intro b _; rfl
  | cons o l ih =>
    intro b h
    show List.foldl _ (patchOnePfx o newB b) l = b
    rw [patchOnePfx_skip_of_longer (h o (by simp))]
    exact ih b (fun o2 ho2 => h o2 (by simp [ho2]))

theorem oldB_ne_nil_of_guards {oldB newB : List Nat}
    (heq : ¬ (oldB == newB) = true) (hlen : ¬ newB.length > oldB.length) : oldB ≠ [] := by
  intro hnil
  subst hnil
  simp only [List.length_nil] at hlen
  have : newB = [] := List.eq_nil_of_length_eq_zero (by omega)
  subst this
  simp at heq

/-- **C6.** In the Mach-O data-section pass, a legacy-prefix occurrence is
rewritten only at a path boundary (next byte end-of-buffer, NUL, or `/`);
the rewrite puts the new prefix in place and zero-fills the tail of the old
occurrence while leaving all other bytes unchanged; and when the new prefix
is strictly longer than the legacy prefix the buffer is left unchanged for
that prefix (and wholly unchanged when it is longer than every legacy
prefix). -/
theorem macho_patch_boundary_rewrite_and_skip (oldB newB buf : List Nat) :
    (newB.length > oldB.length → patchOnePfx oldB newB buf = buf) ∧
    ((∀ o ∈ homebrewPrefixes, newB.length > o.length) →
      patchMachoBinaryStrings newB buf = buf) ∧
    ((∀ j, j < buf.length → matchesAt buf oldB j = true →
        isPathBoundary buf (j + oldB.length) = false) →
      patchOnePfx oldB newB buf = buf) ∧
    (∀ i0, matchesAt buf oldB i0 = true → isPathBoundary buf (i0 + oldB.length) = true →
      newB.length ≤ oldB.length → oldB ≠ newB →
      (∀ j, j < buf.length → j ≠ i0 → matchesAt buf oldB j = true →
        isPathBoundary buf (j + oldB.length) = false) →
      (∀ j, j < buf.length → i0 < j →
        matchesAt (rewriteAt buf newB i0 oldB.length) oldB j = true →
        isPathBoundary (rewriteAt buf newB i0 oldB.length) (j + oldB.length) = false) →
      patchOnePfx oldB newB buf = rewriteAt buf newB i0 oldB.length ∧
      ∀ j, (patchOnePfx oldB newB buf)[j]? =
        if j < i0 then buf[j]?
        else if j < i0 + newB.length then newB[j - i0]?
        else if j < i0 + oldB.length then some 0
        else buf[j]?) := by
  refine ⟨fun h => patchOnePfx_skip_of_longer h, ?_, ?_, ?_⟩
  · intro h
    exact foldl_patchOnePfx_skip newB homebrewPrefixes buf h
  · intro h
    by_cases heq : (oldB == newB) = true
    · simp [patchOnePfx, heq]
    · by_cases hlen : newB.length > oldB.length
      · exact patchOnePfx_skip_of_longer hlen
      · have hne : oldB ≠ [] := oldB_ne_nil_of_guards heq hlen
        have hmain : scanLoop oldB newB buf.length 0 buf buf.length = buf := by
          apply scanLoop_no_hit
          intro j _ hmj
          by_cases hjb : j < buf.length
          · exact h j hjb hmj
          · have hf : matchesAt buf oldB j = false := matchesAt_false_of_long hne
              (by have := List.length_pos.mpr hne; omega)
            exact absurd hmj (by simp [hf])
        simp [patchOnePfx, heq, hlen, hmain]
  · intro i0 hm hb h3 h4 h5 h6
    have heq : ¬ (oldB == newB) = true := by
      simp only [beq_iff_eq]
      exact h4
    have hlen : ¬ newB.length > oldB.length := by omega
    have hne : oldB ≠ [] := oldB_ne_nil_of_guards heq hlen
    have hpos : 0 < oldB.length := List.length_pos.mpr hne
    have hlebuf : i0 + oldB.length ≤ buf.length := matchesAt_le hne hm
    have hi0 : i0 < buf.length := by omega
    have hlen2 : (rewriteAt buf newB i0 oldB.length).length = buf.length :=
      rewriteAt_length h3 hlebuf
    have hstage1 : patchOnePfx oldB newB buf = rewriteAt buf newB i0 oldB.length := by
      calc patchOnePfx oldB newB buf
          = scanLoop oldB newB buf.length 0 buf buf.length := by
            simp [patchOnePfx, heq, hlen]
        _ = scanLoop oldB newB buf.length 0 buf ((buf.length - i0) + i0) := by
            congr 1
            omega
        _ = scanLoop oldB newB buf.length (0 + i0) buf (buf.length - i0) := by
            apply scanLoop_advance
            · intro j _ hj2 hmj
              exact h5 j (by omega) (by omega) hmj
            · omega
        _ = scanLoop oldB newB buf.length i0 buf ((buf.length - i0 - 1) + 1) := by
            congr 1
            · omega
            · omega
        _ = scanLoop oldB newB buf.length (i0 + 1) (rewriteAt buf newB i0 oldB.length)
              (buf.length - i0 - 1) :=
            scanLoop_hit oldB newB buf.length i0 (buf.length - i0 - 1) buf hm hb hi0 hlebuf
        _ = rewriteAt buf newB i0 oldB.length := by
            apply scanLoop_no_hit
            intro j hj hmj
            by_cases hjb : j < buf.length
            · exact h6 j hjb (by omega) hmj
            · have hf : matchesAt (rewriteAt buf newB i0 oldB.length) oldB j = false :=
                matchesAt_false_of_long hne (by rw [hlen2]; omega)
              exact absurd hmj (by simp [hf])
    refine ⟨hstage1, fun j => ?_⟩
    rw [hstage1]
    exact rewriteAt_getElem h3 hlebuf j

/-- Closed witness for C6 at a concrete buffer: the prefix `[10, 20]`
occurs at index 1 followed by a NUL, and the pass rewrites it in place with
`[7]`, zero-filling the leftover byte. -/
theorem macho_patch_boundary_rewrite_and_skip_witness :
    patchOnePfx [10, 20] [7] [1, 10, 20, 0, 5] = rewriteAt [1, 10, 20, 0, 5] [7] 1 2 :=
  ((macho_patch_boundary_rewrite_and_skip [10, 20] [7] [1, 10, 20, 0, 5]).2.2.2 1
    (by decide) (by decide) (by decide) (by decide) (by decide) (by decide)).1

/-- **C8.** `get_formula`: a 304 with a cache entry parses the cached body;
a 404 yields `MissingFormula{name}`; any other non-2xx response yields
`NetworkFailure`. -/
theorem get_formula_status_dispatch {F : Type} (name : String)
    (cached : Option CacheEntry) (resp : HttpResponse) (parse : String → Option F) :
    (∀ entry f, resp.status = 304 → cached = some entry → parse entry.body = some f →
      (getFormula name cached resp parse).1 = .ok f) ∧
    (resp.status = 404 →
      (getFormula name cached resp parse).1 = .error (.missingFormula name)) ∧
    (¬ statusIsSuccess resp.status → resp.status ≠ 404 →
      (resp.status = 304 → cached = none) →
      ∃ msg, (getFormula name cached resp parse).1 = .error (.networkFailure msg)) := by
  refine ⟨?_, ?_, ?_⟩
  · intro entry f h304 hc hp
    subst hc
    simp [getFormula, h304, hp]
  · intro h404
    have h304 : resp.status ≠ 304 := by omega
    simp [getFormula, h304, getFormulaRest, h404]
  · intro hns h404 h304c
    by_cases h304 : resp.status = 304
    · refine ⟨"HTTP " ++ toString resp.status, ?_⟩
      have hns304 : ¬ statusIsSuccess 304 := by decide
      simp [getFormula, h304, h304c h304, getFormulaRest, h404, hns304]
    · refine ⟨"HTTP " ++ toString resp.status, ?_⟩
      simp [getFormula, h304, getFormulaRest, h404, hns]

/-- Closed witness for C8: a 404 response yields `MissingFormula`. -/
theorem get_formula_status_dispatch_witness :
    (getFormula "nonexistent" none ⟨404, none, none, ""⟩
      (fun _ => (none : Option Unit))).1 = .error (.missingFormula "nonexistent") :=
  (get_formula_status_dispatch "nonexistent" none ⟨404, none, none, ""⟩
    (fun _ => (none : Option Unit))).2.1 rfl

/-- **C9.** When the retried GET still returns 401 after a bearer token was
obtained, the download fails with the token-rejected `NetworkFailure` and
exactly two origin GETs were issued — the result is the same for every
oracle agreeing on the first two responses, so no further retry happens. -/
theorem repeated_401_fails_hard (getResp : Nat → AuthResponse)
    (fetchToken : String → Except ZbError String) (www token : String)
    (h0 : (getResp 0).status = 401) (hw : (getResp 0).wwwAuthenticate = some www)
    (ht : fetchToken www = .ok token) (h1 : (getResp 1).status = 401) :
    downloadFlow false getResp fetchToken =
      (.error (.networkFailure "authentication failed: token was rejected by server"), 2) := by
  simp [downloadFlow, h0, handleAuthChallenge, hw, ht, h1]

/-- Closed witness for C9 at a concrete always-401 oracle. -/
theorem repeated_401_fails_hard_witness :
    downloadFlow false (fun _ => ⟨401, some "Bearer realm=r,service=s,scope=p"⟩)
      (fun _ => .ok "tok") =
      (.error (.networkFailure "authentication failed: token was rejected by server"), 2) :=
  repeated_401_fails_hard (fun _ => ⟨401, some "Bearer realm=r,service=s,scope=p"⟩)
    (fun _ => .ok "tok") "Bearer realm=r,service=s,scope=p" "tok" rfl rfl rfl rfl

theorem lookup_removeKey {α : Type} (l : List (String × α)) (k k2 : String) :
    List.lookup k2 (removeKey l k) = if k2 = k then none else List.lookup k2 l := by
  induction l with
  | nil => simp [removeKey]
  | cons p l ih =>
    rcases p with ⟨a, v⟩
    by_cases hak : a = k
    · subst hak
      by_cases h2 : k2 = a
      · subst h2
        simp [removeKey, List.lookup, ih]
      · have hne : (k2 == a) = false := by simp [h2]
        simp [removeKey, List.lookup, hne, ih, h2]
    · by_cases h2 : k2 = a
      · subst h2
        simp [removeKey, hak, List.lookup]
      · have hne : (k2 == a) = false := by simp [h2]
        simp [removeKey, hak, List.lookup, hne, ih]

theorem lookup_setKey {α : Type} (l : List (String × α)) (k k2 : String) (v : α) :
    List.lookup k2 (setKey l k v) = if k2 = k then some v else List.lookup k2 l := by
  by_cases h : k2 = k
  · simp [setKey, List.lookup, h]
  · have hne : (k2 == k) = false := by simp [h]
    simp [setKey, List.lookup, hne, h, lookup_removeKey]

theorem writerWrite_blobs (bs : BlobState) (w : BlobWriterM) (chunk : List Nat) :
    (writerWrite bs w chunk).blobs = bs.blobs := by
  unfold writerWrite
  cases List.lookup w.tmpPath bs.tmps <;> rfl

theorem foldl_writerWrite_blobs (w : BlobWriterM) (chunks : List (List Nat)) :
    ∀ bs : BlobState, (chunks.foldl (fun b c => writerWrite b w c) bs).blobs = bs.blobs := by
  induction chunks with
  | nil => intro bs; rfl
  | cons c chunks ih =>
    intro bs
    rw [List.foldl_cons, ih, writerWrite_blobs]

/-- **C3.** A fully streamed body whose digest differs from the expected
sha256 fails with `ChecksumMismatch{expected, actual}`, no blob for that
sha256 exists in `cache/blobs` afterwards, and the staging file is gone. -/
theorem checksum_mismatch_never_commits (bs : BlobState)
    (sha256 uniqueId : String) (chunks : List (List Nat))
    (sha256Hash : List Nat → String)
    (hmiss : List.lookup sha256 bs.blobs = none)
    (hbad : sha256Hash chunks.flatten ≠ sha256) :
    (downloadResponseWithProgress bs sha256 uniqueId chunks sha256Hash).2 =
      .error (.checksumMismatch sha256 (sha256Hash chunks.flatten)) ∧
    List.lookup sha256
      (downloadResponseWithProgress bs sha256 uniqueId chunks sha256Hash).1.blobs = none ∧
    List.lookup (sha256 ++ "." ++ uniqueId ++ ".tar.gz.part")
      (downloadResponseWithProgress bs sha256 uniqueId chunks sha256Hash).1.tmps = none := by
  have hres : downloadResponseWithProgress bs sha256 uniqueId chunks sha256Hash =
      (writerDrop
        (chunks.foldl (fun b c => writerWrite b (startWrite bs sha256 uniqueId).2 c)
          (startWrite bs sha256 uniqueId).1) (startWrite bs sha256 uniqueId).2 false,
       .error (.checksumMismatch sha256 (sha256Hash chunks.flatten))) := by
    unfold downloadResponseWithProgress
    rw [if_pos hbad]
  rw [hres]
  refine ⟨rfl, ?_, ?_⟩
  · have hb : ∀ (x : BlobState) (w : BlobWriterM),
        (writerDrop x w false).blobs = x.blobs := by
      intro x w
      unfold writerDrop
      split <;> rfl
    rw [hb, foldl_writerWrite_blobs]
    simpa [startWrite] using hmiss
  · unfold writerDrop
    split
    · simp [startWrite, lookup_removeKey]
    · rename_i hcond
      have hnone : List.lookup (startWrite bs sha256 uniqueId).2.tmpPath
          (chunks.foldl (fun b c => writerWrite b (startWrite bs sha256 uniqueId).2 c)
            (startWrite bs sha256 uniqueId).1).tmps = none := by
        rcases hs : List.lookup (startWrite bs sha256 uniqueId).2.tmpPath
            (chunks.foldl (fun b c => writerWrite b (startWrite bs sha256 uniqueId).2 c)
              (startWrite bs sha256 uniqueId).1).tmps with _ | v
        · rfl
        · exact absurd ⟨by simp, by simp [hs]⟩ hcond
      simpa [startWrite] using hnone

/-- Closed witness for C3: a one-chunk body hashing to `"bad"` against
expected `"good"` is rejected and leaves no blob and no staging file. -/
theorem checksum_mismatch_never_commits_witness :
    (downloadResponseWithProgress ⟨[], []⟩ "good" "1.t1" [[1, 2]] (fun _ => "bad")).2 =
      .error (.checksumMismatch "good" "bad") ∧
    List.lookup "good"
      (downloadResponseWithProgress ⟨[], []⟩ "good" "1.t1" [[1, 2]] (fun _ => "bad")).1.blobs
      = none ∧
    List.lookup ("good" ++ "." ++ "1.t1" ++ ".tar.gz.part")
      (downloadResponseWithProgress ⟨[], []⟩ "good" "1.t1" [[1, 2]] (fun _ => "bad")).1.tmps
      = none :=
  checksum_mismatch_never_commits ⟨[], []⟩ "good" "1.t1" [[1, 2]] (fun _ => "bad")
    rfl (by decide)

/-- **C7.** When the final blob already exists at commit time, `commit`
succeeds returning the final path, the existing blob's bytes are untouched
(the whole `blobs` map is unchanged), and the staging file is removed. -/
theorem commit_absorbs_racer (bs : BlobState) (w : BlobWriterM) (content : List Nat)
    (hex : List.lookup w.finalPath bs.blobs = some content) :
    (blobCommit bs w).2 = .ok w.finalPath ∧
    (blobCommit bs w).1.blobs = bs.blobs ∧
    List.lookup w.finalPath (blobCommit bs w).1.blobs = some content ∧
    List.lookup w.tmpPath (blobCommit bs w).1.tmps = none := by
  unfold blobCommit
  rw [hex]
  simp [lookup_removeKey, hex]

/-- Closed witness for C7: a racer already committed `"aa"`. -/
theorem commit_absorbs_racer_witness :
    (blobCommit ⟨[("aa", [9])], [("aa.1.part", [1])]⟩ ⟨"aa.1.part", "aa"⟩).2 = .ok "aa" ∧
    (blobCommit ⟨[("aa", [9])], [("aa.1.part", [1])]⟩ ⟨"aa.1.part", "aa"⟩).1.blobs
      = [("aa", [9])] ∧
    List.lookup "aa"
      (blobCommit ⟨[("aa", [9])], [("aa.1.part", [1])]⟩ ⟨"aa.1.part", "aa"⟩).1.blobs
      = some [9] ∧
    List.lookup "aa.1.part"
      (blobCommit ⟨[("aa", [9])], [("aa.1.part", [1])]⟩ ⟨"aa.1.part", "aa"⟩).1.tmps = none :=
  commit_absorbs_racer ⟨[("aa", [9])], [("aa.1.part", [1])]⟩ ⟨"aa.1.part", "aa"⟩ [9] rfl

theorem processDownload_snd (ops : PipeOps) (link : Bool) (toInstall : List PkgSpec)
    (st : List (Option ProcessedPackage) × Option ZbError)
    (item : Except ZbError DownloadItem) :
    (processDownload ops link toInstall st item).2 =
      match itemError ops link toInstall item with
      | some e => some e
      | none => st.2 := by
  rcases item with e | dl
  · rfl
  · unfold processDownload itemError
    rcases hidx : toInstall[dl.index]? with _ | pkg
    · simp only [hidx]
    · simp only [hidx]
      rcases h1 : ops.ensureEntry pkg.sha256 dl.blobPath with e | entry
      · simp only [h1]
      · simp only [h1]
        rcases h2 : ops.materialize pkg.name pkg.version entry with e | kegPath
        · simp only [h2]
        · simp only [h2]
          rcases h3 : (if link then ops.linkKegFn kegPath else .ok []) with e | files
          · simp only [h3]
          · simp only [h3]

theorem foldl_processDownload_snd (ops : PipeOps) (link : Bool) (toInstall : List PkgSpec) :
    ∀ (arrivals : List (Except ZbError DownloadItem))
      (st : List (Option ProcessedPackage) × Option ZbError),
      (arrivals.foldl (processDownload ops link toInstall) st).2 =
        (pipelineErrors ops link toInstall arrivals).foldl (fun _ e => some e) st.2 := by
  intro arrivals
  induction arrivals with
  | nil => intro st; rfl
  | cons a arrivals ih =>
    intro st
    rw [List.foldl_cons, ih]
    unfold pipelineErrors
    rw [List.filterMap_cons]
    rcases ha : itemError ops link toInstall a with _ | e
    · rw [processDownload_snd, ha]
    · rw [List.foldl_cons, processDownload_snd, ha]

theorem foldl_overwrite (l : List ZbError) (h : l ≠ []) :
    ∀ (init : Option ZbError), l.foldl (fun _ e => some e) init = some (l.getLast h) := by
  induction l with
  | nil => exact absurd rfl h
  | cons e l ih =>
    intro init
    rcases l with _ | ⟨x, xs⟩
    · rfl
    · rw [List.foldl_cons, ih (by simp)]
      rw [show (e :: x :: xs).getLast h = (x :: xs).getLast (by simp) from List.getLast_cons _]

/-- **C2 counterexample.** With two failures in completion order, the kind
of error for both being distinct, `execute_with_progress` returns the
*second* (most recently recorded) error, not the first: the loop's single
`error` slot is overwritten by every later failure.  Nothing is committed. -/
theorem execute_returns_last_not_first_cex :
    pipelineErrors ⟨fun _ _ => .ok "", fun _ _ _ => .ok "", fun _ => .ok []⟩ false []
        [.error (.networkFailure "first failure"),
         .error (.networkFailure "second failure")] =
      [.networkFailure "first failure", .networkFailure "second failure"] ∧
    executeWithProgress ⟨fun _ _ => .ok "", fun _ _ _ => .ok "", fun _ => .ok []⟩ false []
        [.error (.networkFailure "first failure"),
         .error (.networkFailure "second failure")] =
      ([], .error (.networkFailure "second failure")) ∧
    ZbError.networkFailure "second failure" ≠ ZbError.networkFailure "first failure" :=
  ⟨rfl, rfl, by decide⟩

/-- **C2 (amended).** After the download channel fully drains, if any
pipeline stage failed the function returns the **last** error recorded in
completion order, and no database commit is performed for any package. -/
theorem execute_aborts_with_last_error (ops : PipeOps) (link : Bool)
    (toInstall : List PkgSpec) (arrivals : List (Except ZbError DownloadItem))
    (herr : pipelineErrors ops link toInstall arrivals ≠ []) :
    executeWithProgress ops link toInstall arrivals =
      ([], .error ((pipelineErrors ops link toInstall arrivals).getLast herr)) := by
  have h2 := foldl_processDownload_snd ops link toInstall arrivals
    (List.replicate toInstall.length none, none)
  rw [foldl_overwrite _ herr] at h2
  unfold executeWithProgress
  simp only []
  rw [h2]

/-- Closed witness for amended C2: a single download failure aborts with
that error and commits nothing. -/
theorem execute_aborts_with_last_error_witness :
    executeWithProgress ⟨fun _ _ => .ok "", fun _ _ _ => .ok "", fun _ => .ok []⟩ false []
      [.error (.networkFailure "boom")] = ([], .error (.networkFailure "boom")) := by
  have h := execute_aborts_with_last_error
    ⟨fun _ _ => .ok "", fun _ _ _ => .ok "", fun _ => .ok []⟩ false []
    [.error (.networkFailure "boom")] (by decide)
  exact h

/-! ### Filesystem lemmas -/

theorem fsGet_mem {fs : Fs} {p : List String} {n : FsNode}
    (h : fsGet fs p = some n) : (p, n) ∈ fs := by
  induction fs with
  | nil => simp [fsGet] at h
  | cons e rest ih =>
    rcases e with ⟨q, m⟩
    by_cases hq : q = p
    · subst hq
      simp [fsGet] at h
      simp [h]
    · simp [fsGet, hq] at h
      simp [ih h]

theorem fsGet_fsRemove (fs : Fs) (p q : List String) :
    fsGet (fsRemove fs p) q = if q = p then none else fsGet fs q := by
  induction fs with
  | nil => simp [fsRemove, fsGet]
  | cons e rest ih =>
    rcases e with ⟨r, m⟩
    by_cases hr : r = p
    · subst hr
      by_cases hq : q = r
      · subst hq
        simp [fsRemove, fsGet, ih]
      · simp [fsRemove, fsGet, ih, hq, Ne.symm hq]
    · by_cases hq : q = r
      · subst hq
        simp [fsRemove, fsGet, hr, Ne.symm hr]
      · simp [fsRemove, fsGet, hr, Ne.symm hq, ih]

theorem fsGet_cons (fs : Fs) (r : List String) (n : FsNode) (q : List String) :
    fsGet ((r, n) :: fs) q = if q = r then some n else fsGet fs q := by
  show (if r = q then some n else fsGet fs q) = _
  by_cases h : q = r
  · subst h
    simp
  · rw [if_neg (fun hx => h (Eq.symm hx)), if_neg h]

theorem canon_of_nonlink {fs : Fs} {p : List String} {n : FsNode}
    (h : fsGet fs p = some n) (hn : n.isLink = false) : canon fs p = some p := by
  unfold canon canonAux
  rcases n with _ | _ | ⟨t, a⟩
  · simp [h]
  · simp [h]
  · simp [FsNode.isLink] at hn

theorem canon_of_missing {fs : Fs} {p : List String}
    (h : fsGet fs p = none) : canon fs p = none := by
  unfold canon canonAux
  simp [h]

/-- Under a non-link (or missing) addressed entry, `canon` is the identity
(or failure); conversely `canon` pointing anywhere means the entry resolves
to itself. -/
theorem canon_nonlink_cases {fs : Fs} {p : List String}
    (h : ∀ n, fsGet fs p = some n → n.isLink = false) :
    canon fs p = some p ∨ canon fs p = none := by
  rcases hg : fsGet fs p with _ | n
  · exact Or.inr (canon_of_missing hg)
  · exact Or.inl (canon_of_nonlink hg (h n hg))

/-- **C10.** `link_opt` never reports a `LinkConflict`; an opt symlink
whose canonical target already equals the keg is kept unchanged; an
existing opt symlink with a foreign (or unresolvable) target is removed
and replaced by a symlink to the keg being linked, touching no other
path. -/
theorem link_opt_replaces_foreign_keeps_own (fs : Fs) (optDir kegPath : List String)
    (name : String) (hname : optName kegPath = some name) :
    (∀ p, (linkOpt fs optDir kegPath).2 ≠ .error (.linkConflict p)) ∧
    (∀ t a c, fsGet fs (optDir ++ [name]) = some (.symlink t a) →
      canon fs (resolveTarget (optDir ++ [name]) t a) = some c →
      canon fs kegPath = some c →
      linkOpt fs optDir kegPath = (fs, .ok ())) ∧
    (∀ t a, fsGet fs (optDir ++ [name]) = some (.symlink t a) →
      ¬ ((canon fs (resolveTarget (optDir ++ [name]) t a)).isSome ∧
         canon fs (resolveTarget (optDir ++ [name]) t a) = canon fs kegPath) →
      fsGet (linkOpt fs optDir kegPath).1 (optDir ++ [name]) =
        some (.symlink kegPath true) ∧
      (linkOpt fs optDir kegPath).2 = .ok () ∧
      ∀ q, q ≠ optDir ++ [name] → fsGet (linkOpt fs optDir kegPath).1 q = fsGet fs q) := by
  have hok : (linkOpt fs optDir kegPath).2 = .ok () := by
    simp only [linkOpt, hname]
    by_cases h1 : (fsGet fs (optDir ++ [name])).isSome
    · simp only [h1, if_true]
      rcases hrl : readLinkF fs (optDir ++ [name]) with _ | ⟨t, a⟩ <;>
        simp only [hrl] <;>
        first
          | rfl
          | (split <;> rfl)
    · simp [h1]
  refine ⟨?_, ?_, ?_⟩
  · intro p
    simp [hok]
  · intro t a c hget hc1 hc2
    have h1 : (fsGet fs (optDir ++ [name])).isSome := by simp [hget]
    have hrl : readLinkF fs (optDir ++ [name]) = some (t, a) := by simp [readLinkF, hget]
    simp only [linkOpt, hname]
    simp [h1, hrl, hc1, hc2]
  · intro t a hget hne
    have h1 : (fsGet fs (optDir ++ [name])).isSome := by simp [hget]
    have hrl : readLinkF fs (optDir ++ [name]) = some (t, a) := by simp [readLinkF, hget]
    have hres : linkOpt fs optDir kegPath =
        (fsAddSymlink (fsRemove fs (optDir ++ [name])) (optDir ++ [name]) kegPath,
         .ok ()) := by
      simp only [linkOpt, hname]
      simp [h1, hrl, hne]
    rw [hres]
    refine ⟨?_, rfl, ?_⟩
    · simp [fsAddSymlink, fsGet_cons]
    · intro q hq
      simp only [fsAddSymlink]
      rw [fsGet_cons, if_neg hq, fsGet_fsRemove, if_neg hq]

/-- Closed witness for C10: an opt symlink pointing at a different keg is
replaced by one pointing at the keg being linked. -/
theorem link_opt_replaces_foreign_keeps_own_witness :
    fsGet (linkOpt [(["z", "opt", "p"], FsNode.symlink ["c", "p", "2"] true),
        (["c", "p", "2"], FsNode.dir), (["c", "p", "1"], FsNode.dir)]
      ["z", "opt"] ["c", "p", "1"]).1 (["z", "opt"] ++ ["p"]) =
      some (.symlink ["c", "p", "1"] true) ∧
    (linkOpt [(["z", "opt", "p"], FsNode.symlink ["c", "p", "2"] true),
        (["c", "p", "2"], FsNode.dir), (["c", "p", "1"], FsNode.dir)]
      ["z", "opt"] ["c", "p", "1"]).2 = .ok () ∧
    ∀ q, q ≠ ["z", "opt"] ++ ["p"] →
      fsGet (linkOpt [(["z", "opt", "p"], FsNode.symlink ["c", "p", "2"] true),
          (["c", "p", "2"], FsNode.dir), (["c", "p", "1"], FsNode.dir)]
        ["z", "opt"] ["c", "p", "1"]).1 q =
      fsGet [(["z", "opt", "p"], FsNode.symlink ["c", "p", "2"] true),
          (["c", "p", "2"], FsNode.dir), (["c", "p", "1"], FsNode.dir)] q :=
  (link_opt_replaces_foreign_keeps_own
      [(["z", "opt", "p"], FsNode.symlink ["c", "p", "2"] true),
       (["c", "p", "2"], FsNode.dir), (["c", "p", "1"], FsNode.dir)]
      ["z", "opt"] ["c", "p", "1"] "p" rfl).2.2
    ["c", "p", "2"] true (by decide) (by decide)

theorem linkOpt_snd_ok (fs : Fs) (optDir kegPath : List String) (name : String)
    (hname : optName kegPath = some name) :
    (linkOpt fs optDir kegPath).2 = .ok () := by
  simp only [linkOpt, hname]
  by_cases h1 : (fsGet fs (optDir ++ [name])).isSome
  · rw [if_pos h1]
    rcases hrl : readLinkF fs (optDir ++ [name]) with _ | ⟨t, a⟩ <;>
      simp only [hrl] <;>
      first
        | rfl
        | (split <;> rfl)
  · rw [if_neg h1]

theorem linkOpt_frame (fs : Fs) (optDir kegPath : List String) (name : String)
    (hname : optName kegPath = some name) (q : List String)
    (hq : q ≠ optDir ++ [name]) :
    fsGet (linkOpt fs optDir kegPath).1 q = fsGet fs q := by
  simp only [linkOpt, hname]
  by_cases h1 : (fsGet fs (optDir ++ [name])).isSome
  · rw [if_pos h1]
    rcases hrl : readLinkF fs (optDir ++ [name]) with _ | ⟨t, a⟩ <;>
      simp only [hrl]
    · simp only [fsAddSymlink]
      rw [fsGet_cons, if_neg hq, fsGet_fsRemove, if_neg hq]
    · split
      · rfl
      · simp only [fsAddSymlink]
        rw [fsGet_cons, if_neg hq, fsGet_fsRemove, if_neg hq]
  · rw [if_neg h1]
    simp only [fsAddSymlink]
    rw [fsGet_cons, if_neg hq]

theorem readDir_cons_ne (fs : Fs) (r : List String) (n : FsNode) (p : List String)
    (h : r.dropLast ≠ p) : readDir ((r, n) :: fs) p = readDir fs p := by
  simp [readDir, List.filterMap_cons, h]

theorem readDir_fsRemove_ne (fs : Fs) (r p : List String)
    (h : r.dropLast ≠ p) : readDir (fsRemove fs r) p = readDir fs p := by
  have key : (fsRemove fs r).filterMap
      (fun e => if e.1.dropLast = p then e.1.getLast? else none) =
      fs.filterMap (fun e => if e.1.dropLast = p then e.1.getLast? else none) := by
    induction fs with
    | nil => rfl
    | cons e rest ih =>
      rcases e with ⟨q, m⟩
      by_cases hq : q = r
      · subst hq
        have h2 : fsRemove ((q, m) :: rest) q = fsRemove rest q := by
          simp [fsRemove]
        rw [h2, ih, List.filterMap_cons]
        simp [h]
      · have h2 : fsRemove ((q, m) :: rest) r = (q, m) :: fsRemove rest r := by
          simp [fsRemove, hq]
        rw [h2, List.filterMap_cons, List.filterMap_cons, ih]
  simp [readDir, key]

theorem linkOpt_readDir (fs : Fs) (optDir kegPath : List String) (name : String)
    (hname : optName kegPath = some name) (p : List String) (hp : optDir ≠ p) :
    readDir (linkOpt fs optDir kegPath).1 p = readDir fs p := by
  have hdl : (optDir ++ [name]).dropLast ≠ p := by
    rw [List.dropLast_concat]
    exact hp
  simp only [linkOpt, hname]
  by_cases h1 : (fsGet fs (optDir ++ [name])).isSome
  · rw [if_pos h1]
    rcases hrl : readLinkF fs (optDir ++ [name]) with _ | ⟨t, a⟩ <;>
      simp only [hrl]
    · simp only [fsAddSymlink]
      rw [readDir_cons_ne _ _ _ _ hdl, readDir_fsRemove_ne _ _ _ hdl]
    · split
      · rfl
      · simp only [fsAddSymlink]
        rw [readDir_cons_ne _ _ _ _ hdl, readDir_fsRemove_ne _ _ _ hdl]
  · rw [if_neg h1]
    simp only [fsAddSymlink]
    rw [readDir_cons_ne _ _ _ _ hdl]

theorem linkBinEntry_spec (fs : Fs) (binDir kegBin : List String) (name : String)
    (acc : List (List String × List String)) (fsE : Fs)
    (acc2 : List (List String × List String))
    (h : linkBinEntry fs binDir kegBin name acc = (fsE, .ok acc2)) :
    acc2 = acc ++ [(binDir ++ [name], kegBin ++ [name])] ∧
    ∀ p, p ≠ binDir ++ [name] → fsGet fsE p = fsGet fs p := by
  unfold linkBinEntry at h
  by_cases h1 : (pexists fs (binDir ++ [name]) || (fsGet fs (binDir ++ [name])).isSome) = true
  · rw [if_pos h1] at h
    split at h
    · split at h
      · obtain ⟨he, ha⟩ := Prod.mk.injEq .. ▸ h
        refine ⟨by simpa using ha.symm, fun p _ => by rw [← he]⟩
      · split at h
        · obtain ⟨he, ha⟩ := Prod.mk.injEq .. ▸ h
          refine ⟨by simpa using ha.symm, fun p hp => ?_⟩
          rw [← he]
          simp only [fsAddSymlink]
          rw [fsGet_cons, if_neg hp, fsGet_fsRemove, if_neg hp]
        · simp at h
    · simp at h
  · rw [if_neg h1] at h
    obtain ⟨he, ha⟩ := Prod.mk.injEq .. ▸ h
    refine ⟨by simpa using ha.symm, fun p hp => ?_⟩
    rw [← he]
    simp only [fsAddSymlink]
    rw [fsGet_cons, if_neg hp]

theorem linkBinLoop_spec (binDir kegBin : List String) :
    ∀ (entries : List String) (fs : Fs) (acc : List (List String × List String))
      (fs2 : Fs) (files : List (List String × List String)),
      linkBinLoop binDir kegBin entries fs acc = (fs2, .ok files) →
      files = acc ++ entries.map (fun n => (binDir ++ [n], kegBin ++ [n])) ∧
      ∀ p, fsGet fs2 p ≠ fsGet fs p → ∃ n, n ∈ entries ∧ p = binDir ++ [n] := by
  intro entries
  induction entries with
  | nil =>
    intro fs acc fs2 files h
    obtain ⟨he, ha⟩ := Prod.mk.injEq .. ▸ h
    refine ⟨by simpa using ha.symm, fun p hp => absurd (by rw [← he]) hp⟩
  | cons name rest ih =>
    intro fs acc fs2 files h
    unfold linkBinLoop at h
    rcases hE : linkBinEntry fs binDir kegBin name acc with ⟨fsE, excE⟩
    rw [hE] at h
    rcases excE with e | acc2
    · simp at h
    · obtain ⟨hf, hframe⟩ := ih fsE acc2 fs2 files h
      obtain ⟨hacc2, hframeE⟩ := linkBinEntry_spec fs binDir kegBin name acc fsE acc2 hE
      constructor
      · rw [hf, hacc2]
        simp
      · intro p hp
        by_cases hp2 : fsGet fs2 p = fsGet fsE p
        · have hpe : fsGet fsE p ≠ fsGet fs p := fun hx => hp (hp2.trans hx)
          refine ⟨name, by simp, ?_⟩
          by_contra hne
          exact hpe (hframeE p hne)
        · obtain ⟨n, hn, hpn⟩ := hframe p hp2
          exact ⟨n, by simp [hn], hpn⟩

/-- **C1 (amended).** A successful `link_keg` creates the opt symlink and
mirrors exactly the top-level entries of the keg's `bin` directory as
symlinks under `prefix/bin`; no other path — in particular nothing under
`lib`, `libexec`, `include`, or `share` — is touched. -/
theorem link_keg_links_only_bin (fs : Fs) (binDir optDir kegPath : List String)
    (name : String) (fs2 : Fs) (files : List (List String × List String))
    (hname : optName kegPath = some name)
    (hopt : optDir ≠ kegPath ++ ["bin"])
    (hres : linkKeg fs binDir optDir kegPath = (fs2, .ok files)) :
    (files = (readDir fs (kegPath ++ ["bin"])).map
        (fun n => (binDir ++ [n], (kegPath ++ ["bin"]) ++ [n])) ∨ files = []) ∧
    ∀ p, fsGet fs2 p ≠ fsGet fs p →
      p = optDir ++ [name] ∨
      ∃ n, n ∈ readDir fs (kegPath ++ ["bin"]) ∧ p = binDir ++ [n] := by
  unfold linkKeg at hres
  rcases hLO : linkOpt fs optDir kegPath with ⟨fs1, exc⟩
  have hexc : exc = .ok () := by
    have := linkOpt_snd_ok fs optDir kegPath name hname
    rw [hLO] at this
    exact this
  subst hexc
  rw [hLO] at hres
  replace hres :
      (if ¬ pexists fs1 (kegPath ++ ["bin"]) = true then
        (fs1, Except.ok ([] : List (List String × List String)))
      else linkBinLoop binDir (kegPath ++ ["bin"])
        (readDir fs1 (kegPath ++ ["bin"])) fs1 []) = (fs2, Except.ok files) := hres
  have hframe1 : ∀ q, q ≠ optDir ++ [name] → fsGet fs1 q = fsGet fs q := by
    intro q hq
    have := linkOpt_frame fs optDir kegPath name hname q hq
    rw [hLO] at this
    exact this
  have hrd : readDir fs1 (kegPath ++ ["bin"]) = readDir fs (kegPath ++ ["bin"]) := by
    have := linkOpt_readDir fs optDir kegPath name hname (kegPath ++ ["bin"]) hopt
    rw [hLO] at this
    exact this
  by_cases hpe : pexists fs1 (kegPath ++ ["bin"]) = true
  · rw [if_neg (by simp [hpe])] at hres
    obtain ⟨hf, hframe2⟩ :=
      linkBinLoop_spec binDir (kegPath ++ ["bin"]) (readDir fs1 (kegPath ++ ["bin"]))
        fs1 [] fs2 files hres
    constructor
    · left
      rw [hf, hrd]
      simp
    · intro p hp
      by_cases hp2 : fsGet fs2 p = fsGet fs1 p
      · left
        by_contra hne
        exact hp (hp2.trans (hframe1 p hne))
      · right
        obtain ⟨n, hn, hpn⟩ := hframe2 p hp2
        rw [hrd] at hn
        exact ⟨n, hn, hpn⟩
  · rw [if_pos (by simpa using hpe)] at hres
    obtain ⟨he, ha⟩ := Prod.mk.injEq .. ▸ hres
    refine ⟨Or.inr (by simpa using ha.symm), fun p hp => ?_⟩
    left
    by_contra hne
    rw [← he] at hp
    exact hp (hframe1 p hne)

/-- Closed witness for amended C1 at a one-keg filesystem (keg without a
`bin` directory): only the opt symlink is created and no file list is
produced. -/
theorem link_keg_links_only_bin_witness :
    (([] : List (List String × List String)) =
        (readDir ([] : Fs) (["c", "p", "1"] ++ ["bin"])).map
          (fun n => (["z", "bin"] ++ [n], (["c", "p", "1"] ++ ["bin"]) ++ [n])) ∨
      ([] : List (List String × List String)) = []) ∧
    ∀ p, fsGet [(["z", "opt"] ++ ["p"], FsNode.symlink ["c", "p", "1"] true)] p ≠
        fsGet ([] : Fs) p →
      p = ["z", "opt"] ++ ["p"] ∨
      ∃ n, n ∈ readDir ([] : Fs) (["c", "p", "1"] ++ ["bin"]) ∧
        p = ["z", "bin"] ++ [n] :=
  link_keg_links_only_bin [] ["z", "bin"] ["z", "opt"] ["c", "p", "1"] "p"
    [(["z", "opt"] ++ ["p"], FsNode.symlink ["c", "p", "1"] true)] [] rfl
    (by decide) rfl

/-- **C1 counterexample.** `link_keg` succeeds on a keg that has a file
`lib/libfoo.a`, yet afterwards no symlink anywhere in the filesystem —
in particular not at `zb/lib/libfoo.a` — points at that file: only the
keg's `bin` entries are mirrored, `lib`, `libexec`, `include` and `share`
are not. -/
theorem link_keg_ignores_lib_tree_cex :
    (linkKeg c1Fs ["zb", "bin"] ["zb", "opt"] ["Cellar", "foo", "1.0"]).2 =
      .ok [(["zb", "bin", "foo"], ["Cellar", "foo", "1.0", "bin", "foo"])] ∧
    fsGet c1Fs ["Cellar", "foo", "1.0", "lib", "libfoo.a"] = some .file ∧
    (∀ e ∈ (linkKeg c1Fs ["zb", "bin"] ["zb", "opt"] ["Cellar", "foo", "1.0"]).1,
      ∀ a : Bool, e.2 ≠ .symlink ["Cellar", "foo", "1.0", "lib", "libfoo.a"] a) ∧
    fsGet (linkKeg c1Fs ["zb", "bin"] ["zb", "opt"] ["Cellar", "foo", "1.0"]).1
      ["zb", "lib", "libfoo.a"] = none :=
  ⟨rfl, rfl, by decide, rfl⟩

theorem readLinkF_some {fs : Fs} {p t : List String} {a : Bool}
    (h : readLinkF fs p = some (t, a)) : fsGet fs p = some (.symlink t a) := by
  unfold readLinkF at h
  rcases hg : fsGet fs p with _ | n <;> rw [hg] at h
  · simp at h
  · rcases n with _ | _ | ⟨t2, a2⟩
    · simp at h
    · simp at h
    · simp at h
      rw [h.1, h.2]

theorem fsRemove_length_le (fs : Fs) (p : List String) :
    (fsRemove fs p).length ≤ fs.length := by
  induction fs with
  | nil => exact Nat.le_refl _
  | cons e rest ih =>
    rcases e with ⟨q, n⟩
    show (if q = p then fsRemove rest p else (q, n) :: fsRemove rest p).length ≤
      rest.length + 1
    by_cases h : q = p
    · rw [if_pos h]
      exact Nat.le_succ_of_le ih
    · rw [if_neg h]
      exact Nat.succ_le_succ ih

theorem canonAux_succ (fs : Fs) (fuel : Nat) (r : List String) :
    canonAux fs (fuel + 1) r =
      match fsGet fs r with
      | some (.symlink t a) => canonAux fs fuel (resolveTarget r t a)
      | some _ => some r
      | none => none := rfl

/-- `canonAux` is monotone in the fuel: a successful resolution stays
successful with more fuel. -/
theorem canonAux_mono_fuel (fs : Fs) :
    ∀ (fuel fuel2 : Nat), fuel ≤ fuel2 → ∀ (r c : List String),
      canonAux fs fuel r = some c → canonAux fs fuel2 r = some c := by
  intro fuel
  induction fuel with
  | zero =>
    intro fuel2 _ r c h
    exact absurd h (by simp [canonAux])
  | succ fuel ih =>
    intro fuel2 hle r c h
    rcases fuel2 with _ | fuel2
    · exact absurd hle (by omega)
    rcases hg : fsGet fs r with _ | n
    · rw [canonAux_succ, hg] at h
      exact absurd h (by simp)
    · rcases n with _ | _ | ⟨t, a⟩
      · rw [canonAux_succ, hg] at h
        rw [canonAux_succ, hg]
        exact h
      · rw [canonAux_succ, hg] at h
        rw [canonAux_succ, hg]
        exact h
      · rw [canonAux_succ, hg] at h
        have h2 : canonAux fs fuel (resolveTarget r t a) = some c := h
        rw [canonAux_succ, hg]
        show canonAux fs fuel2 (resolveTarget r t a) = some c
        exact ih fuel2 (by omega) _ c h2

/-- Removing entries never redirects a successful `canonicalize`: every
lookup along a chain that succeeds in the smaller state returns the same
node in the original state, so the same chain resolves there. -/
theorem canonAux_stable {fs fsi : Fs}
    (hpt : ∀ p, fsGet fsi p = fsGet fs p ∨ fsGet fsi p = none) :
    ∀ (fuel : Nat) (r c : List String),
      canonAux fsi fuel r = some c → canonAux fs fuel r = some c := by
  intro fuel
  induction fuel with
  | zero =>
    intro r c h
    exact absurd h (by simp [canonAux])
  | succ fuel ih =>
    intro r c h
    rcases hg : fsGet fsi r with _ | n
    · rw [canonAux_succ, hg] at h
      exact absurd h (by simp)
    · have hsame : fsGet fs r = some n := by
        rcases hpt r with he | he
        · rw [← he]
          exact hg
        · rw [he] at hg
          cases hg
      rcases n with _ | _ | ⟨t, a⟩
      · rw [canonAux_succ, hg] at h
        rw [canonAux_succ, hsame]
        exact h
      · rw [canonAux_succ, hg] at h
        rw [canonAux_succ, hsame]
        exact h
      · rw [canonAux_succ, hg] at h
        have h2 : canonAux fsi fuel (resolveTarget r t a) = some c := h
        rw [canonAux_succ, hsame]
        show canonAux fs fuel (resolveTarget r t a) = some c
        exact ih _ c h2

/-- A successful `canonicalize` in an intermediate (entries-removed,
no-longer) state holds in the original filesystem as well. -/
theorem canon_stable {fs fsi : Fs}
    (hpt : ∀ p, fsGet fsi p = fsGet fs p ∨ fsGet fsi p = none)
    (hlen : fsi.length ≤ fs.length) {r c : List String}
    (h : canon fsi r = some c) : canon fs r = some c :=
  canonAux_mono_fuel fs (fsi.length + 1) (fs.length + 1) (by omega) r c
    (canonAux_stable hpt (fsi.length + 1) r c h)

theorem unlink_cond_good (fs fsi : Fs) (kegPath lp tp : List String)
    (hInv : UnlinkInv fs fsi kegPath)
    (htp : kegPath <+: tp)
    (t : List String) (a : Bool)
    (hrl : readLinkF fsi lp = some (t, a))
    (hc1 : (canon fsi (resolveTarget lp t a)).isSome)
    (hc2 : canon fsi (resolveTarget lp t a) = canon fsi tp) :
    CanonIntoKeg fs kegPath lp := by
  obtain ⟨hlen, hpt0⟩ := hInv
  have hpt : ∀ p, fsGet fsi p = fsGet fs p ∨ fsGet fsi p = none :=
    fun p => (hpt0 p).imp id And.left
  have hlp_i : fsGet fsi lp = some (.symlink t a) := readLinkF_some hrl
  have hlp : fsGet fs lp = some (.symlink t a) := by
    rcases hpt lp with h | h
    · rw [← h]
      exact hlp_i
    · rw [hlp_i] at h
      cases h
  obtain ⟨c, hc⟩ := Option.isSome_iff_exists.mp hc1
  have hct_i : canon fsi tp = some c := by
    rw [← hc2]
    exact hc
  exact ⟨t, a, c, tp, hlp, htp, canon_stable hpt hlen hc, canon_stable hpt hlen hct_i⟩

theorem unlinkInv_remove (fs fsi : Fs) (kegPath rp : List String)
    (hInv : UnlinkInv fs fsi kegPath) (hg : CanonIntoKeg fs kegPath rp) :
    UnlinkInv fs (fsRemove fsi rp) kegPath := by
  obtain ⟨hlen, hpt⟩ := hInv
  refine ⟨Nat.le_trans (fsRemove_length_le fsi rp) hlen, ?_⟩
  intro p
  by_cases hp : p = rp
  · subst hp
    right
    rw [fsGet_fsRemove, if_pos rfl]
    exact ⟨rfl, hg⟩
  · rw [fsGet_fsRemove, if_neg hp]
    exact hpt p

theorem unlinkBinLoop_inv (fs : Fs) (binDir kegBin kegPath : List String)
    (hpre : kegPath <+: kegBin) :
    ∀ (entries : List String) (fsi : Fs) (acc : List (List String)),
      UnlinkInv fs fsi kegPath →
      UnlinkInv fs (unlinkBinLoop binDir kegBin entries fsi acc).1 kegPath := by
  intro entries
  induction entries with
  | nil => intro fsi acc h; exact h
  | cons name rest ih =>
    intro fsi acc hInv
    show UnlinkInv fs
      (match readLinkF fsi (binDir ++ [name]) with
       | some (t, a) =>
         if (canon fsi (resolveTarget (binDir ++ [name]) t a)).isSome ∧
             canon fsi (resolveTarget (binDir ++ [name]) t a) =
               canon fsi (kegBin ++ [name]) then
           unlinkBinLoop binDir kegBin rest (fsRemove fsi (binDir ++ [name]))
             (acc ++ [binDir ++ [name]])
         else unlinkBinLoop binDir kegBin rest fsi acc
       | none => unlinkBinLoop binDir kegBin rest fsi acc).1 kegPath
    rcases hrl : readLinkF fsi (binDir ++ [name]) with _ | ⟨t, a⟩
    · exact ih fsi acc hInv
    · show UnlinkInv fs
        (if (canon fsi (resolveTarget (binDir ++ [name]) t a)).isSome ∧
            canon fsi (resolveTarget (binDir ++ [name]) t a) =
              canon fsi (kegBin ++ [name]) then
          unlinkBinLoop binDir kegBin rest (fsRemove fsi (binDir ++ [name]))
            (acc ++ [binDir ++ [name]])
        else unlinkBinLoop binDir kegBin rest fsi acc).1 kegPath
      by_cases hc : (canon fsi (resolveTarget (binDir ++ [name]) t a)).isSome ∧
          canon fsi (resolveTarget (binDir ++ [name]) t a) = canon fsi (kegBin ++ [name])
      · rw [if_pos hc]
        exact ih _ _ (unlinkInv_remove fs fsi kegPath (binDir ++ [name]) hInv
          (unlink_cond_good fs fsi kegPath (binDir ++ [name]) (kegBin ++ [name]) hInv
            (hpre.trans (List.prefix_append _ _)) t a hrl hc.1 hc.2))
      · rw [if_neg hc]
        exact ih fsi acc hInv

theorem unlinkOpt_inv (fs : Fs) (optDir kegPath : List String) :
    UnlinkInv fs (unlinkOpt fs optDir kegPath) kegPath := by
  have hrefl : UnlinkInv fs fs kegPath := ⟨Nat.le_refl _, fun p => Or.inl rfl⟩
  unfold unlinkOpt
  rcases hname : optName kegPath with _ | name
  · exact hrefl
  · simp only
    rcases hrl : readLinkF fs (optDir ++ [name]) with _ | ⟨t, a⟩
    · exact hrefl
    · show UnlinkInv fs
        (if (canon fs (resolveTarget (optDir ++ [name]) t a)).isSome ∧
            canon fs (resolveTarget (optDir ++ [name]) t a) = canon fs kegPath then
          fsRemove fs (optDir ++ [name])
        else fs) kegPath
      by_cases hc : (canon fs (resolveTarget (optDir ++ [name]) t a)).isSome ∧
          canon fs (resolveTarget (optDir ++ [name]) t a) = canon fs kegPath
      · rw [if_pos hc]
        exact unlinkInv_remove fs fs kegPath (optDir ++ [name]) hrefl
          (unlink_cond_good fs fs kegPath (optDir ++ [name]) kegPath hrefl
            (List.prefix_refl _) t a hrl hc.1 hc.2)
      · rw [if_neg hc]
        exact hrefl

/-- **C5 counterexample.** With a keg whose `bin/x` is itself a symlink to
the outside file `o/x`, `unlink_keg` removes the prefix symlink `z/bin/x`
even though its canonicalized target `o/x` does NOT lie inside the keg:
`canonicalize` follows the keg-internal symlink, so the comparison against
`canonicalize(keg/bin/x)` succeeds at a target outside the keg.  This
refutes the claim that only symlinks whose canonical target is a path
inside this keg are removed and all others are left unchanged. -/
theorem unlink_keg_outside_target_removed_cex :
    fsGet c5xFs ["z", "bin", "x"] = some (.symlink ["o", "x"] true) ∧
    canon c5xFs (resolveTarget ["z", "bin", "x"] ["o", "x"] true) =
      some ["o", "x"] ∧
    (¬ ["k", "1"] <+: ["o", "x"]) ∧
    fsGet (unlinkKeg c5xFs ["z", "bin"] ["z", "opt"] ["k", "1"]).1
      ["z", "bin", "x"] = none :=
  ⟨rfl, rfl, by decide, rfl⟩

/-- **C5 (amended).** `unlink_keg` removes only prefix symlinks whose
canonicalized target coincides with the canonicalization of a path inside
this keg: if a path's entry changed at all, the entry was a symlink, it is
gone afterwards, and its canonical target equals the canonical form of
some path with the keg path as prefix.  (When the keg tree itself holds a
symlink, that common canonical path may lie outside the keg — see the
counterexample.)  Contrapositively, a symlink whose canonical target
differs from the canonicalization of every path under the keg — such as
one owned by another package manager — is left unchanged.  No regularity
hypotheses are needed. -/
theorem unlink_keg_removes_only_canon_keg_targets (fs : Fs)
    (binDir optDir kegPath : List String) :
    ∀ p, fsGet (unlinkKeg fs binDir optDir kegPath).1 p ≠ fsGet fs p →
      fsGet (unlinkKeg fs binDir optDir kegPath).1 p = none ∧
      ∃ t a c q, fsGet fs p = some (.symlink t a) ∧ kegPath <+: q ∧
        canon fs (resolveTarget p t a) = some c ∧ canon fs q = some c := by
  have hInv : UnlinkInv fs (unlinkKeg fs binDir optDir kegPath).1 kegPath := by
    have hk : unlinkKeg fs binDir optDir kegPath =
        (if ¬ pexists (unlinkOpt fs optDir kegPath) (kegPath ++ ["bin"]) = true then
          (unlinkOpt fs optDir kegPath, ([] : List (List String)))
        else
          unlinkBinLoop binDir (kegPath ++ ["bin"])
            (readDir (unlinkOpt fs optDir kegPath) (kegPath ++ ["bin"]))
            (unlinkOpt fs optDir kegPath) []) := rfl
    rw [hk]
    by_cases hpe : pexists (unlinkOpt fs optDir kegPath) (kegPath ++ ["bin"]) = true
    · rw [if_neg (by simp [hpe])]
      exact unlinkBinLoop_inv fs binDir (kegPath ++ ["bin"]) kegPath
        (List.prefix_append _ _) _ _ _ (unlinkOpt_inv fs optDir kegPath)
    · rw [if_pos (by simpa using hpe)]
      exact unlinkOpt_inv fs optDir kegPath
  intro p hp
  rcases hInv.2 p with h | ⟨hnone, t, a, c, q, hs, hq, hc1, hc2⟩
  · exact absurd h hp
  · exact ⟨hnone, t, a, c, q, hs, hq, hc1, hc2⟩

/-- Closed witness for C5 (amended): the prefix symlink into the keg is
removed, and it was indeed a symlink whose canonical target equals the
canonicalization of a path inside the keg. -/
theorem unlink_keg_removes_only_canon_keg_targets_witness :
    fsGet (unlinkKeg c5Fs ["z", "bin"] ["z", "opt"] ["c", "p", "1"]).1
      ["z", "bin", "x"] = none ∧
    ∃ t a c q, fsGet c5Fs ["z", "bin", "x"] = some (.symlink t a) ∧
      ["c", "p", "1"] <+: q ∧
      canon c5Fs (resolveTarget ["z", "bin", "x"] t a) = some c ∧
      canon c5Fs q = some c :=
  unlink_keg_removes_only_canon_keg_targets c5Fs ["z", "bin"] ["z", "opt"]
    ["c", "p", "1"] ["z", "bin", "x"] (by decide)

theorem countP_set_balance {α : Type} (p : α → Bool) :
    ∀ (l : List α) (i : Nat) (a b : α), l[i]? = some a →
      (l.set i b).countP p + (if p a then 1 else 0) =
        l.countP p + (if p b then 1 else 0) := by
  intro l
  induction l with
  | nil => intro i a b h; simp at h
  | cons x xs ih =>
    intro i a b h
    rcases i with _ | i
    · simp at h
      subst h
      simp [List.countP_cons]
      omega
    · simp at h
      have := ih i a b h
      simp [List.set, List.countP_cons]
      omega

theorem countP_pos_of_get {α : Type} (p : α → Bool) :
    ∀ (l : List α) (i : Nat) (a : α), l[i]? = some a → p a = true →
      1 ≤ l.countP p := by
  intro l
  induction l with
  | nil => intro i a h _; simp at h
  | cons x xs ih =>
    intro i a h hp
    rcases i with _ | i
    · simp at h
      subst h
      simp [List.countP_cons, hp]
    · simp at h
      have := ih i a h hp
      simp [List.countP_cons]
      omega

theorem countP_two_of_get {α : Type} (p : α → Bool) :
    ∀ (l : List α) (i j : Nat) (a b : α), i ≠ j →
      l[i]? = some a → l[j]? = some b → p a = true → p b = true →
      2 ≤ l.countP p := by
  intro l
  induction l with
  | nil => intro i j a b _ h _ _ _; simp at h
  | cons x xs ih =>
    intro i j a b hij hi hj hpa hpb
    rcases i with _ | i
    · rcases j with _ | j
      · exact absurd rfl hij
      · simp at hi hj
        subst hi
        have h1 := countP_pos_of_get p xs j b hj hpb
        have h2 : (x :: xs).countP p = xs.countP p + 1 := by
          simp [List.countP_cons, hpa]
        omega
    · rcases j with _ | j
      · simp at hi hj
        subst hj
        have h1 := countP_pos_of_get p xs i a hi hpa
        have h2 : (x :: xs).countP p = xs.countP p + 1 := by
          simp [List.countP_cons, hpb]
        omega
      · simp at hi hj
        have h1 := ih i j a b (by omega) hi hj hpa hpb
        have h2 : xs.countP p ≤ (x :: xs).countP p := by
          rw [List.countP_cons]
          exact Nat.le_add_right _ _
        omega

theorem countP_setJoiners_leader (ok : Bool) (l : List TaskPc) :
    (setJoiners ok l).countP leaderRegionB = l.countP leaderRegionB := by
  unfold setJoiners
  rw [List.countP_map]
  apply List.countP_congr
  intro pc _
  rcases pc with _ | _ | _ | _ | _ | ok2 | res | ok2 <;>
    first
      | rfl
      | (rcases res with _ | r <;> rfl)

theorem getElem?_setJoiners (ok : Bool) (l : List TaskPc) (j : Nat) :
    (setJoiners ok l)[j]? = (l[j]?).map (joinFlip ok) := by
  unfold setJoiners
  rw [List.getElem?_map]

theorem safeInv_init (n : Nat) : SafeInv (initState n) := by
  unfold SafeInv initState
  simp only
  induction n with
  | zero => rfl
  | succ n ih => simpa [List.replicate, List.countP_cons, leaderRegionB] using ih

theorem safeInv_step {cap : Nat} {af : Bool} {s s2 : DedupState}
    (hstep : DStep cap af s s2) (hInv : SafeInv s) : SafeInv s2 := by
  unfold SafeInv at hInv ⊢
  cases hstep with
  | lockJoin i h hin =>
    have hb : (s.tasks.set i (TaskPc.joinWait none)).countP leaderRegionB + 0 =
        s.tasks.countP leaderRegionB + 0 :=
      countP_set_balance leaderRegionB s.tasks i _ (.joinWait none) h
    show (s.tasks.set i (TaskPc.joinWait none)).countP leaderRegionB =
      if s.inflight = true then 1 else 0
    omega
  | lockLead i h hin =>
    have hb : (s.tasks.set i TaskPc.leaderSem).countP leaderRegionB + 0 =
        s.tasks.countP leaderRegionB + 1 :=
      countP_set_balance leaderRegionB s.tasks i _ .leaderSem h
    have hInv2 : s.tasks.countP leaderRegionB = 0 := by
      rw [hin] at hInv
      exact hInv
    show (s.tasks.set i TaskPc.leaderSem).countP leaderRegionB = 1
    omega
  | semAcq i h hs =>
    have hb : (s.tasks.set i TaskPc.leaderCheck).countP leaderRegionB + 1 =
        s.tasks.countP leaderRegionB + 1 :=
      countP_set_balance leaderRegionB s.tasks i _ .leaderCheck h
    show (s.tasks.set i TaskPc.leaderCheck).countP leaderRegionB =
      if s.inflight = true then 1 else 0
    omega
  | checkHit i h hb2 =>
    have hb : (s.tasks.set i (TaskPc.leaderFinish true)).countP leaderRegionB + 1 =
        s.tasks.countP leaderRegionB + 1 :=
      countP_set_balance leaderRegionB s.tasks i _ (.leaderFinish true) h
    show (s.tasks.set i (TaskPc.leaderFinish true)).countP leaderRegionB =
      if s.inflight = true then 1 else 0
    omega
  | checkMiss i h hb2 =>
    have hb : (s.tasks.set i TaskPc.leaderReq).countP leaderRegionB + 1 =
        s.tasks.countP leaderRegionB + 1 :=
      countP_set_balance leaderRegionB s.tasks i _ .leaderReq h
    show (s.tasks.set i TaskPc.leaderReq).countP leaderRegionB =
      if s.inflight = true then 1 else 0
    omega
  | send i h =>
    have hb : (s.tasks.set i TaskPc.leaderBody).countP leaderRegionB + 1 =
        s.tasks.countP leaderRegionB + 1 :=
      countP_set_balance leaderRegionB s.tasks i _ .leaderBody h
    show (s.tasks.set i TaskPc.leaderBody).countP leaderRegionB =
      if s.inflight = true then 1 else 0
    omega
  | bodyOk i h =>
    have hb : (s.tasks.set i (TaskPc.leaderFinish true)).countP leaderRegionB + 1 =
        s.tasks.countP leaderRegionB + 1 :=
      countP_set_balance leaderRegionB s.tasks i _ (.leaderFinish true) h
    show (s.tasks.set i (TaskPc.leaderFinish true)).countP leaderRegionB =
      if s.inflight = true then 1 else 0
    omega
  | bodyFail i h hf =>
    have hb : (s.tasks.set i (TaskPc.leaderFinish false)).countP leaderRegionB + 1 =
        s.tasks.countP leaderRegionB + 1 :=
      countP_set_balance leaderRegionB s.tasks i _ (.leaderFinish false) h
    show (s.tasks.set i (TaskPc.leaderFinish false)).countP leaderRegionB =
      if s.inflight = true then 1 else 0
    omega
  | finish i ok h =>
    have hpos := countP_pos_of_get leaderRegionB s.tasks i _ h (by rfl)
    have hinf : s.inflight = true := by
      rcases hf : s.inflight
      · exfalso
        rw [hf] at hInv
        have hInv2 : s.tasks.countP leaderRegionB = 0 := hInv
        omega
      · rfl
    have hb : (s.tasks.set i (TaskPc.done ok)).countP leaderRegionB + 1 =
        s.tasks.countP leaderRegionB + 0 :=
      countP_set_balance leaderRegionB s.tasks i _ (.done ok) h
    have hInv2 : s.tasks.countP leaderRegionB = 1 := by
      rw [hinf] at hInv
      exact hInv
    show (setJoiners ok (s.tasks.set i (TaskPc.done ok))).countP leaderRegionB = 0
    rw [countP_setJoiners_leader]
    omega
  | recv i r h =>
    have hb : (s.tasks.set i (TaskPc.done r)).countP leaderRegionB + 0 =
        s.tasks.countP leaderRegionB + 0 :=
      countP_set_balance leaderRegionB s.tasks i _ (.done r) h
    show (s.tasks.set i (TaskPc.done r)).countP leaderRegionB =
      if s.inflight = true then 1 else 0
    omega

theorem get_set_cases {α : Type} {l : List α} {i j : Nat} {b pc : α}
    (h : (l.set i b)[j]? = some pc) :
    (j = i ∧ pc = b) ∨ (j ≠ i ∧ l[j]? = some pc) := by
  by_cases hji : i = j
  · subst hji
    rw [List.getElem?_set, if_pos rfl] at h
    split at h
    · exact Or.inl ⟨rfl, (Option.some.inj h).symm⟩
    · cases h
  · rw [List.getElem?_set_ne hji] at h
    exact Or.inr ⟨fun he => hji he.symm, h⟩

theorem get_set_self_of_get {α : Type} {l : List α} {i : Nat} {a : α} (b : α)
    (h : l[i]? = some a) : (l.set i b)[i]? = some b :=
  List.getElem?_set_self (List.getElem?_eq_some_iff.mp h).1

theorem get_set_other {α : Type} {l : List α} {i j : Nat} (b : α)
    (hji : j ≠ i) : (l.set i b)[j]? = l[j]? :=
  List.getElem?_set_ne (fun he => hji he.symm)

theorem joinFlip_cases (ok : Bool) (pc0 pc : TaskPc) (h : joinFlip ok pc0 = pc) :
    pc0 = pc ∨ (pc0 = .joinWait none ∧ pc = .joinWait (some ok)) := by
  rcases pc0 with _ | _ | _ | _ | _ | ok2 | res | ok2
  · exact Or.inl h
  · exact Or.inl h
  · exact Or.inl h
  · exact Or.inl h
  · exact Or.inl h
  · exact Or.inl h
  · rcases res with _ | r
    · exact Or.inr ⟨rfl, h.symm⟩
    · exact Or.inl h
  · exact Or.inl h

theorem noFail_joinFlip {pc0 : TaskPc} (h : noFailB pc0 = true) :
    noFailB (joinFlip true pc0) = true := by
  rcases pc0 with _ | _ | _ | _ | _ | ok2 | res | ok2 <;>
    first
      | exact h
      | (rcases res with _ | r
         · rfl
         · exact h)

theorem getElem_setJoiners_cases {l : List TaskPc} {ok : Bool} {j : Nat} {pc : TaskPc}
    (h : (setJoiners ok l)[j]? = some pc) :
    ∃ pc0, l[j]? = some pc0 ∧ joinFlip ok pc0 = pc := by
  rw [getElem?_setJoiners] at h
  rcases hg : l[j]? with _ | pc0 <;> rw [hg] at h
  · cases h
  · exact ⟨pc0, rfl, Option.some.inj h⟩

theorem succInv_step {cap : Nat} {s s2 : DedupState}
    (hstep : DStep cap false s s2) (hInv : SuccInv s) : SuccInv s2 := by
  have hSafe2 : SafeInv s2 := safeInv_step hstep hInv.1
  obtain ⟨hSafe, hle, hblob1, hpast, hbody, hnofail, hfin, hreqb⟩ := hInv
  cases hstep with
  | lockJoin i h hin =>
    refine ⟨hSafe2, hle, hblob1, ?_, ?_, ?_, ?_, ?_⟩
    · intro j pc hj dp
      rcases get_set_cases hj with ⟨_, rfl⟩ | ⟨_, hold⟩
      · simp [donePastB] at dp
      · exact hpast j pc hold dp
    · intro hr hb
      obtain ⟨j, hj⟩ := hbody hr hb
      have hji : j ≠ i := fun he => by
        rw [he, h] at hj
        cases hj
      exact ⟨j, by rw [get_set_other _ hji]; exact hj⟩
    · intro j pc hj
      rcases get_set_cases hj with ⟨_, rfl⟩ | ⟨_, hold⟩
      · rfl
      · exact hnofail j pc hold
    · intro j hj
      rcases get_set_cases hj with ⟨_, hpc⟩ | ⟨_, hold⟩
      · cases hpc
      · exact hfin j hold
    · intro j hj
      rcases get_set_cases hj with ⟨_, hpc⟩ | ⟨_, hold⟩
      · cases hpc
      · exact hreqb j hold
  | lockLead i h hin =>
    refine ⟨hSafe2, hle, hblob1, ?_, ?_, ?_, ?_, ?_⟩
    · intro j pc hj dp
      rcases get_set_cases hj with ⟨_, rfl⟩ | ⟨_, hold⟩
      · simp [donePastB] at dp
      · exact hpast j pc hold dp
    · intro hr hb
      obtain ⟨j, hj⟩ := hbody hr hb
      have hji : j ≠ i := fun he => by
        rw [he, h] at hj
        cases hj
      exact ⟨j, by rw [get_set_other _ hji]; exact hj⟩
    · intro j pc hj
      rcases get_set_cases hj with ⟨_, rfl⟩ | ⟨_, hold⟩
      · rfl
      · exact hnofail j pc hold
    · intro j hj
      rcases get_set_cases hj with ⟨_, hpc⟩ | ⟨_, hold⟩
      · cases hpc
      · exact hfin j hold
    · intro j hj
      rcases get_set_cases hj with ⟨_, hpc⟩ | ⟨_, hold⟩
      · cases hpc
      · exact hreqb j hold
  | semAcq i h hs =>
    refine ⟨hSafe2, hle, hblob1, ?_, ?_, ?_, ?_, ?_⟩
    · intro j pc hj dp
      rcases get_set_cases hj with ⟨_, rfl⟩ | ⟨_, hold⟩
      · simp [donePastB] at dp
      · exact hpast j pc hold dp
    · intro hr hb
      obtain ⟨j, hj⟩ := hbody hr hb
      have hji : j ≠ i := fun he => by
        rw [he, h] at hj
        cases hj
      exact ⟨j, by rw [get_set_other _ hji]; exact hj⟩
    · intro j pc hj
      rcases get_set_cases hj with ⟨_, rfl⟩ | ⟨_, hold⟩
      · rfl
      · exact hnofail j pc hold
    · intro j hj
      rcases get_set_cases hj with ⟨_, hpc⟩ | ⟨_, hold⟩
      · cases hpc
      · exact hfin j hold
    · intro j hj
      rcases get_set_cases hj with ⟨_, hpc⟩ | ⟨_, hold⟩
      · cases hpc
      · exact hreqb j hold
  | checkHit i h hb2 =>
    refine ⟨hSafe2, hle, hblob1, ?_, ?_, ?_, ?_, ?_⟩
    · intro j pc hj dp
      rcases get_set_cases hj with ⟨_, rfl⟩ | ⟨_, hold⟩
      · exact hblob1 hb2
      · exact hpast j pc hold dp
    · intro hr hb
      exact absurd hb2 (by simp [show s.blob = false from hb])
    · intro j pc hj
      rcases get_set_cases hj with ⟨_, rfl⟩ | ⟨_, hold⟩
      · rfl
      · exact hnofail j pc hold
    · intro j hj
      rcases get_set_cases hj with ⟨_, hpc⟩ | ⟨_, hold⟩
      · exact hb2
      · exact hfin j hold
    · intro j hj
      rcases get_set_cases hj with ⟨_, hpc⟩ | ⟨_, hold⟩
      · cases hpc
      · exact hreqb j hold
  | checkMiss i h hb2 =>
    refine ⟨hSafe2, hle, hblob1, ?_, ?_, ?_, ?_, ?_⟩
    · intro j pc hj dp
      rcases get_set_cases hj with ⟨_, rfl⟩ | ⟨_, hold⟩
      · simp [donePastB] at dp
      · exact hpast j pc hold dp
    · intro hr hb
      obtain ⟨j, hj⟩ := hbody hr hb
      have hji : j ≠ i := fun he => by
        rw [he, h] at hj
        cases hj
      exact ⟨j, by rw [get_set_other _ hji]; exact hj⟩
    · intro j pc hj
      rcases get_set_cases hj with ⟨_, rfl⟩ | ⟨_, hold⟩
      · rfl
      · exact hnofail j pc hold
    · intro j hj
      rcases get_set_cases hj with ⟨_, hpc⟩ | ⟨_, hold⟩
      · cases hpc
      · exact hfin j hold
    · intro j hj
      rcases get_set_cases hj with ⟨_, hpc⟩ | ⟨_, hold⟩
      · exact hb2
      · exact hreqb j hold
  | send i h =>
    have hbf : s.blob = false := hreqb i h
    have hreq0 : s.requests = 0 := by
      by_contra hne
      have hr1 : s.requests = 1 := by omega
      obtain ⟨j, hj⟩ := hbody hr1 hbf
      have hji : j ≠ i := fun he => by
        rw [he, h] at hj
        cases hj
      have h2 := countP_two_of_get leaderRegionB s.tasks j i _ _ hji hj h rfl rfl
      rw [hSafe] at h2
      split at h2 <;> omega
    refine ⟨hSafe2, ?_, ?_, ?_, ?_, ?_, ?_, ?_⟩
    · show s.requests + 1 ≤ 1
      omega
    · intro _
      show s.requests + 1 = 1
      omega
    · intro j pc hj dp
      show s.requests + 1 = 1
      omega
    · intro hr hb
      exact ⟨i, get_set_self_of_get _ h⟩
    · intro j pc hj
      rcases get_set_cases hj with ⟨_, rfl⟩ | ⟨_, hold⟩
      · rfl
      · exact hnofail j pc hold
    · intro j hj
      rcases get_set_cases hj with ⟨_, hpc⟩ | ⟨_, hold⟩
      · cases hpc
      · exact absurd (hblob1 (hfin j hold)) (by omega)
    · intro j hj
      rcases get_set_cases hj with ⟨_, hpc⟩ | ⟨_, hold⟩
      · cases hpc
      · exact hreqb j hold
  | bodyOk i h =>
    have hreq1 : s.requests = 1 := hpast i _ h rfl
    refine ⟨hSafe2, hle, ?_, ?_, ?_, ?_, ?_, ?_⟩
    · intro _
      exact hreq1
    · intro j pc hj dp
      exact hreq1
    · intro hr hb
      cases hb
    · intro j pc hj
      rcases get_set_cases hj with ⟨_, rfl⟩ | ⟨_, hold⟩
      · rfl
      · exact hnofail j pc hold
    · intro j hj
      rfl
    · intro j hj
      rcases get_set_cases hj with ⟨hji, hpc⟩ | ⟨hji, hold⟩
      · cases hpc
      · exfalso
        have h2 := countP_two_of_get leaderRegionB s.tasks j i _ _ hji hold h rfl rfl
        rw [hSafe] at h2
        split at h2 <;> omega
  | bodyFail i h hf =>
    cases hf
  | finish i ok h =>
    have hok : ok = true := by
      rcases ok with _ | _
      · have := hnofail i _ h
        simp [noFailB] at this
      · rfl
    subst hok
    have hreq1 : s.requests = 1 := hpast i _ h rfl
    have hbt : s.blob = true := hfin i h
    refine ⟨hSafe2, hle, ?_, ?_, ?_, ?_, ?_, ?_⟩
    · intro _
      exact hreq1
    · intro j pc hj dp
      exact hreq1
    · intro hr hb
      exact absurd hbt (by simp [show s.blob = false from hb])
    · intro j pc hj
      obtain ⟨pc0, hpc0, hflip⟩ := getElem_setJoiners_cases hj
      rcases get_set_cases hpc0 with ⟨_, rfl⟩ | ⟨_, hold⟩
      · rw [← hflip]
        rfl
      · rw [← hflip]
        exact noFail_joinFlip (hnofail j pc0 hold)
    · intro j hj
      exact hbt
    · intro j hj
      obtain ⟨pc0, hpc0, hflip⟩ := getElem_setJoiners_cases hj
      rcases joinFlip_cases _ _ _ hflip with hpc | ⟨_, hpc⟩
      · rcases get_set_cases hpc0 with ⟨_, rfl⟩ | ⟨_, hold⟩
        · cases hpc
        · rw [hpc] at hold
          exact absurd hbt (by simp [hreqb j hold])
      · cases hpc
  | recv i r h =>
    have hr1 : r = true := by
      rcases r with _ | _
      · have := hnofail i _ h
        simp [noFailB] at this
      · rfl
    subst hr1
    have hreq1 : s.requests = 1 := hpast i _ h rfl
    refine ⟨hSafe2, hle, hblob1, ?_, ?_, ?_, ?_, ?_⟩
    · intro j pc hj dp
      exact hreq1
    · intro hr hb
      obtain ⟨j, hj⟩ := hbody hr hb
      have hji : j ≠ i := fun he => by
        rw [he, h] at hj
        cases hj
      exact ⟨j, by rw [get_set_other _ hji]; exact hj⟩
    · intro j pc hj
      rcases get_set_cases hj with ⟨_, rfl⟩ | ⟨_, hold⟩
      · rfl
      · exact hnofail j pc hold
    · intro j hj
      rcases get_set_cases hj with ⟨_, hpc⟩ | ⟨_, hold⟩
      · cases hpc
      · exact hfin j hold
    · intro j hj
      rcases get_set_cases hj with ⟨_, hpc⟩ | ⟨_, hold⟩
      · cases hpc
      · exact hreqb j hold

theorem succInv_init (n : Nat) : SuccInv (initState n) := by
  have hget : ∀ (j : Nat) (pc : TaskPc),
      (initState n).tasks[j]? = some pc → pc = .start := by
    intro j pc hj
    unfold initState at hj
    simp only [List.getElem?_replicate] at hj
    split at hj
    · exact (Option.some.inj hj).symm
    · cases hj
  refine ⟨safeInv_init n, by simp [initState], ?_, ?_, ?_, ?_, ?_, ?_⟩
  · intro hb
    cases hb
  · intro j pc hj dp
    rw [hget j pc hj] at dp
    cases dp
  · intro hr
    cases hr
  · intro j pc hj
    rw [hget j pc hj]
    rfl
  · intro j hj
    have := hget j _ hj
    cases this
  · intro j hj
    have := hget j _ hj
    cases this

theorem dstep_length {cap : Nat} {af : Bool} {s s2 : DedupState}
    (h : DStep cap af s s2) : s2.tasks.length = s.tasks.length := by
  cases h <;>
    simp [setJoiners, List.length_set, List.length_map]

theorem reach_safeInv {cap : Nat} {af : Bool} {n : Nat} {s : DedupState}
    (h : Relation.ReflTransGen (DStep cap af) (initState n) s) : SafeInv s := by
  induction h with
  | refl => exact safeInv_init n
  | tail hr hstep ih => exact safeInv_step hstep ih

theorem reach_succInv {cap : Nat} {n : Nat} {s : DedupState}
    (h : Relation.ReflTransGen (DStep cap false) (initState n) s) : SuccInv s := by
  induction h with
  | refl => exact succInv_init n
  | tail hr hstep ih => exact succInv_step hstep ih

theorem reach_length {cap : Nat} {af : Bool} {n : Nat} {s : DedupState}
    (h : Relation.ReflTransGen (DStep cap af) (initState n) s) : s.tasks.length = n := by
  induction h with
  | refl => simp [initState]
  | tail hr hstep ih => rw [dstep_length hstep, ih]

/-- **C4.** Deduplicated parallel downloads for one sha256: in every
reachable state — failures allowed — at most one network download is in
flight; and in every failure-free execution in which all N ≥ 1 callers
have finished, the origin server received exactly one GET and every caller
ended with the winner's successful result. -/
theorem dedup_single_flight_single_request (cap n : Nat) (af : Bool) (s : DedupState) :
    (Relation.ReflTransGen (DStep cap af) (initState n) s → inFlightCount s ≤ 1) ∧
    (af = false →
      Relation.ReflTransGen (DStep cap af) (initState n) s →
      1 ≤ n →
      s.tasks.all isDoneB = true →
      s.requests = 1 ∧
      ∀ j : Nat, ∀ ok, s.tasks[j]? = some (TaskPc.done ok) → ok = true) := by
  constructor
  · intro h
    have hS := reach_safeInv h
    unfold SafeInv at hS
    unfold inFlightCount
    have hm : s.tasks.countP (fun pc => pc == TaskPc.leaderBody) ≤
        s.tasks.countP leaderRegionB := by
      apply List.countP_mono_left
      intro x _ hx
      have hxe : x = TaskPc.leaderBody := by simpa using hx
      rw [hxe]
      rfl
    rw [hS] at hm
    split at hm <;> omega
  · intro haf h hn hdone
    subst haf
    obtain ⟨hSafe, hle, hblob1, hpast, hbody, hnofail, hfin, hreqb⟩ := reach_succInv h
    have hlen := reach_length h
    have h0 : ∃ pc, s.tasks[0]? = some pc := by
      rcases hg : s.tasks[0]? with _ | pc
      · rw [List.getElem?_eq_none_iff] at hg
        omega
      · exact ⟨pc, rfl⟩
    obtain ⟨pc0, hpc0⟩ := h0
    have hd : isDoneB pc0 = true :=
      (List.all_eq_true.mp hdone) pc0 (List.getElem?_mem hpc0)
    have hreq : s.requests = 1 := by
      apply hpast 0 pc0 hpc0
      rcases pc0 <;> first | rfl | (exfalso; simp [isDoneB] at hd)
    refine ⟨hreq, ?_⟩
    intro j ok hj
    have hnf := hnofail j _ hj
    rcases ok with _ | _
    · simp [noFailB] at hnf
    · rfl

/-- Closed witness for C4: the initial two-caller state has at most one
download in flight, and a complete one-caller success run issues exactly
one origin GET and ends with the successful result. -/
theorem dedup_single_flight_single_request_witness :
    inFlightCount (initState 2) ≤ 1 ∧
    ((⟨[TaskPc.done true], false, true, 0, 1⟩ : DedupState).requests = 1 ∧
      ∀ j : Nat, ∀ ok,
        (⟨[TaskPc.done true], false, true, 0, 1⟩ : DedupState).tasks[j]? =
          some (TaskPc.done ok) → ok = true) := by
  constructor
  · exact (dedup_single_flight_single_request 4 2 false (initState 2)).1 .refl
  · have t1 : DStep 1 false (initState 1)
        ⟨[TaskPc.leaderSem], true, false, 0, 0⟩ :=
      DStep.lockLead (initState 1) 0 rfl rfl
    have t2 : DStep 1 false (⟨[TaskPc.leaderSem], true, false, 0, 0⟩ : DedupState)
        ⟨[TaskPc.leaderCheck], true, false, 1, 0⟩ :=
      DStep.semAcq _ 0 rfl (by decide)
    have t3 : DStep 1 false (⟨[TaskPc.leaderCheck], true, false, 1, 0⟩ : DedupState)
        ⟨[TaskPc.leaderReq], true, false, 1, 0⟩ :=
      DStep.checkMiss _ 0 rfl rfl
    have t4 : DStep 1 false (⟨[TaskPc.leaderReq], true, false, 1, 0⟩ : DedupState)
        ⟨[TaskPc.leaderBody], true, false, 1, 1⟩ :=
      DStep.send _ 0 rfl
    have t5 : DStep 1 false (⟨[TaskPc.leaderBody], true, false, 1, 1⟩ : DedupState)
        ⟨[TaskPc.leaderFinish true], true, true, 1, 1⟩ :=
      DStep.bodyOk _ 0 rfl
    have t6 : DStep 1 false (⟨[TaskPc.leaderFinish true], true, true, 1, 1⟩ : DedupState)
        ⟨[TaskPc.done true], false, true, 0, 1⟩ :=
      DStep.finish _ 0 true rfl
    have hreach : Relation.ReflTransGen (DStep 1 false) (initState 1)
        ⟨[TaskPc.done true], false, true, 0, 1⟩ :=
      Relation.ReflTransGen.tail
        (Relation.ReflTransGen.tail
          (Relation.ReflTransGen.tail
            (Relation.ReflTransGen.tail
              (Relation.ReflTransGen.tail
                (Relation.ReflTransGen.tail Relation.ReflTransGen.refl t1) t2) t3) t4)
          t5) t6
    exact (dedup_single_flight_single_request 1 1 false
      ⟨[TaskPc.done true], false, true, 0, 1⟩).2 rfl hreach (by decide) rfl
